import Mathlib

/-!
Verification of the evidence-retrieval and temporal-reasoning core of the
`oski` OSCE-video-grader repository, as a shallow embedding in Lean 4.

The embedding follows the Python sources:
  * `core/utils/viterbi_decoding_utils.py` (transition matrix, soft emission
    matrix, Viterbi decode, temporal reconstruction),
  * `core/utils/temporal_utils.py` (overlapping clip window generation),
  * `core/vector_store/retrievers/video_keyframe_retriever.py` and
    `core/vector_store/utils.py` (hybrid keyframe retrieval),
  * `core/utils/video_processor.py` (keyframe selection by clustering),
  * `core/agents/executor_agent.py` and `core/utils/cache_manager.py`
    (per-video temporal-segmentation caching).

Machine floats are modelled by exact rationals; numeric literals such as
`1e-9` become the corresponding rationals.  External numeric routines
(the vector database, sklearn K-means) are modelled by passing their
outputs as explicit arguments.
-/

namespace Oski

/-! ## Association-list lookups (Python `dict.get`) -/

/-- Python `allowed_successors_map.get(current_action, [])`. -/
def lookupSuccessors (succMap : List (String × List String)) (a : String) :
    List String :=
  match succMap.find? (fun pr => pr.1 == a) with
  | some pr => pr.2
  | none => []

/-- Python `id_to_action_label_map.get(smoothed_action_id, f"UNKNOWN_ID_{id}")`
from `reconstruct_temporal_action_sequence`. -/
def smoothedLabel (idMap : List (ℕ × String)) (id : ℕ) : String :=
  match idMap.find? (fun pr => pr.1 == id) with
  | some pr => pr.2
  | none => "UNKNOWN_ID_" ++ toString id

/-! ## Viterbi decoding (`viterbi_decode`)

`np.argmax`/`np.argmin` return the FIRST index attaining the extremum; the
recursions below keep the current best index and move only on a strict
improvement, matching that. -/

/-- Auxiliary scan for `np.argmax`: `best` is the index of the running
maximum `bv`, `idx` is the index of the next element. -/
def argmaxAux (best : ℕ) (bv : ℚ) (idx : ℕ) : List ℚ → ℕ
  | [] => best
  | x :: rest =>
    if bv < x then argmaxAux idx x (idx + 1) rest
    else argmaxAux best bv (idx + 1) rest

/-- `np.argmax` over a rational vector (first maximal index; 0 on empty). -/
def argmaxIdx : List ℚ → ℕ
  | [] => 0
  | x :: rest => argmaxAux 0 x 1 rest

/-- Auxiliary scan for `np.argmin`. -/
def argminAux (best : ℕ) (bv : ℚ) (idx : ℕ) : List ℚ → ℕ
  | [] => best
  | x :: rest =>
    if x < bv then argminAux idx x (idx + 1) rest
    else argminAux best bv (idx + 1) rest

/-- `np.argmin` over a rational vector (first minimal index; 0 on empty). -/
def argminIdx : List ℚ → ℕ
  | [] => 0
  | x :: rest => argminAux 0 x 1 rest

/-- One Viterbi recurrence step (`for t in range(1, T)` body of
`viterbi_decode`): from the previous row `V[t-1]` and emission row `e`,
produce the new row `V[t]` and the back-pointer row. -/
def viterbiStep (logT : List (List ℚ)) (K : ℕ) (vprev : List ℚ)
    (e : List ℚ) : List ℚ × List ℕ :=
  let cols := (List.range K).map (fun j =>
    let scores := (List.range K).map (fun i =>
      vprev.getD i 0 + (logT.getD i []).getD j 0)
    let best := argmaxIdx scores
    (scores.getD best 0 + e.getD j 0, best))
  (cols.map Prod.fst, cols.map Prod.snd)

/-- All recurrence rows: fold `viterbiStep` over the emission rows
`logE[1:]`, collecting back-pointer rows in order `t = 1, …, T-1`. -/
def viterbiRows (logT : List (List ℚ)) (K : ℕ) :
    List ℚ → List (List ℚ) → List ℚ × List (List ℕ)
  | vprev, [] => (vprev, [])
  | vprev, e :: rest =>
    let st := viterbiStep logT K vprev e
    let tail := viterbiRows logT K st.1 rest
    (tail.1, st.2 :: tail.2)

/-- Backtracking loop of `viterbi_decode`, consuming the back-pointer rows
in reverse order (`t = T-1` down to `1`). -/
def viterbiBacktrack : List (List ℕ) → ℕ → List ℕ
  | [], j => [j]
  | row :: rest, j => viterbiBacktrack rest (row.getD j 0) ++ [j]

/-- `viterbi_decode(logPi, log_transition_matrix, log_emission_matrix)`:
most probable state sequence, one state per emission row. -/
def viterbi_decode (logPi : List ℚ) (log_transition_matrix : List (List ℚ))
    (log_emission_matrix : List (List ℚ)) : List ℕ :=
  match log_emission_matrix with
  | [] => []
  | e0 :: erest =>
    let K := e0.length
    let v0 := (List.range K).map (fun j => logPi.getD j 0 + e0.getD j 0)
    let res := viterbiRows log_transition_matrix K v0 erest
    let last := argmaxIdx res.1
    viterbiBacktrack res.2.reverse last

/-! ## Temporal reconstruction (`reconstruct_temporal_action_sequence`) -/

/-- The unmerged smoothed sequence (Step 1 of
`reconstruct_temporal_action_sequence`): each decoded id becomes its label
(or the `UNKNOWN_ID_…` fallback) paired with the original timestamps. -/
def unmergedSmoothedSequence (best_path_ids : List ℕ)
    (original_input_sequence : List (String × (ℚ × ℚ)))
    (idMap : List (ℕ × String)) : List (String × (ℚ × ℚ)) :=
  (best_path_ids.zip original_input_sequence).map
    (fun pr => (smoothedLabel idMap pr.1, pr.2.2))

/-- The merge loop (Step 2 of `reconstruct_temporal_action_sequence`):
`cur` is the open segment `(current_label, (current_start, current_end))`;
a same-label neighbour extends `current_end`, a different label closes the
open segment. -/
def mergeLoop (cur : String × (ℚ × ℚ)) :
    List (String × (ℚ × ℚ)) → List (String × (ℚ × ℚ))
  | [] => [cur]
  | nxt :: rest =>
    if nxt.1 = cur.1 then mergeLoop (cur.1, (cur.2.1, nxt.2.2)) rest
    else cur :: mergeLoop nxt rest

/-- `reconstruct_temporal_action_sequence`: raises `ValueError` (modelled
as `Except.error`) when the decoded path and the observation sequence have
different lengths, otherwise maps ids to labels and optionally merges
consecutive equal labels. -/
def reconstruct_temporal_action_sequence (best_path_ids : List ℕ)
    (original_input_sequence : List (String × (ℚ × ℚ)))
    (idMap : List (ℕ × String)) (merge_consecutive : Bool) :
    Except String (List (String × (ℚ × ℚ))) :=
  if best_path_ids.length ≠ original_input_sequence.length then
    .error "Length of best_path_ids must match the length of original_input_sequence."
  else
    let u := unmergedSmoothedSequence best_path_ids original_input_sequence idMap
    if merge_consecutive = false then .ok u
    else
      match u with
      | [] => .ok []
      | s :: rest => .ok (mergeLoop s rest)

/-! ## Per-video temporal cache (`JsonCache` and `Executor.run`)

`JsonCache.cache_data` is a two-level JSON dictionary `category -> key ->
value`, modelled as an insertion-ordered association list.  `Executor.run`
is I/O orchestration; its `ToolCategory.TEMPORAL` branch is embedded as a
function of the cache state, with the external temporal-segmentation tool
(`tool_instance.run`, which performs the per-window oracle labeling)
modelled by its would-be output and oracle-call count passed as
arguments: on a cache hit the tool is never invoked, so zero oracle calls
occur. -/

abbrev Timeline := List (String × (ℚ × ℚ))

abbrev CacheData := List (String × List (String × Timeline))

/-- `Executor.TEMPORAL_CACHE_CATEGORY`. -/
def TEMPORAL_CACHE_CATEGORY : String := "temporal_action_segmenter_outputs"

/-- `JsonCache.get_item`: `self.cache_data.get(category, {}).get(key)`. -/
def get_item (cache : CacheData) (category key : String) : Option Timeline :=
  match cache.find? (fun pr => pr.1 == category) with
  | some pr => (pr.2.find? (fun e => e.1 == key)).map (fun e => e.2)
  | none => none

/-- Insert-or-replace inside one category (inner dict assignment of
`JsonCache.set_item`). -/
def upsertEntry (l : List (String × Timeline)) (key : String)
    (value : Timeline) : List (String × Timeline) :=
  if l.any (fun e => e.1 == key) then
    l.map (fun e => if e.1 == key then (e.1, value) else e)
  else l ++ [(key, value)]

/-- `JsonCache.set_item` on the in-memory dictionary (the JSON file write
is I/O and outside the model). -/
def set_item (cache : CacheData) (category key : String) (value : Timeline) :
    CacheData :=
  if cache.any (fun pr => pr.1 == category) then
    cache.map (fun pr =>
      if pr.1 == category then (pr.1, upsertEntry pr.2 key value) else pr)
  else cache ++ [(category, [(key, value)])]

/-- The `ToolCategory.TEMPORAL` branch of `Executor.run`: consult the
cache under `TEMPORAL_CACHE_CATEGORY` with the video id as key; on a hit
return the cached Timeline unchanged with zero oracle calls; on a miss run
the tool (modelled by `toolOutput` with `toolOracleCalls` oracle calls)
and cache its output.  Returns (timeline, oracle calls made, new cache). -/
def runTemporalBranch (cache : CacheData) (video_id : String)
    (toolOutput : Timeline) (toolOracleCalls : ℕ) :
    Timeline × ℕ × CacheData :=
  match get_item cache TEMPORAL_CACHE_CATEGORY video_id with
  | some cached => (cached, 0, cache)
  | none =>
    (toolOutput, toolOracleCalls,
      set_item cache TEMPORAL_CACHE_CATEGORY video_id toolOutput)

/-! ## Claim C6: Viterbi decoding is deterministic -/

/-- C6: `viterbi_decode` is deterministic: two calls with identical initial
log-prior, identical log-transition matrix and identical log-emission
matrix return the identical best path.  In the embedding `viterbi_decode`
is a pure function (`np.argmax` breaks ties by the fixed first-index
rule), so equal inputs give equal outputs. -/
theorem viterbi_decode_deterministic (logPi₁ logPi₂ : List ℚ)
    (logT₁ logT₂ logE₁ logE₂ : List (List ℚ))
    (hPi : logPi₁ = logPi₂) (hT : logT₁ = logT₂) (hE : logE₁ = logE₂) :
    viterbi_decode logPi₁ logT₁ logE₁ = viterbi_decode logPi₂ logT₂ logE₂ := by
  rw [hPi, hT, hE]

/-- Witness for C6 at a concrete HMM instance. -/
theorem viterbi_decode_deterministic_witness :
    viterbi_decode [0, -1] [[0, -2], [-2, 0]] [[0, -3], [-3, 0]] =
      viterbi_decode [0, -1] [[0, -2], [-2, 0]] [[0, -3], [-3, 0]] :=
  viterbi_decode_deterministic _ _ _ _ _ _ rfl rfl rfl

/-! ## Claim C10: reconstruction fails exactly on length mismatch -/

/-- C10: `reconstruct_temporal_action_sequence` raises `ValueError` if and
only if the decoded path and the observation sequence have different
lengths; with equal lengths it returns normally, mapping every decoded id
(known or not) to a label string. -/
theorem reconstruct_ok_iff_length_eq (best_path_ids : List ℕ)
    (original_input_sequence : List (String × (ℚ × ℚ)))
    (idMap : List (ℕ × String)) (merge_consecutive : Bool) :
    (∃ v, reconstruct_temporal_action_sequence best_path_ids
        original_input_sequence idMap merge_consecutive = .ok v) ↔
      best_path_ids.length = original_input_sequence.length := by
  unfold reconstruct_temporal_action_sequence
  by_cases h : best_path_ids.length = original_input_sequence.length
  · constructor
    · intro _; exact h
    · intro _
      rw [if_neg (not_not_intro h)]
      by_cases hm : merge_consecutive = false
      · exact ⟨_, by rw [if_pos hm]⟩
      · rw [if_neg hm]
        cases unmergedSmoothedSequence best_path_ids original_input_sequence idMap with
        | nil => exact ⟨_, rfl⟩
        | cons s rest => exact ⟨_, rfl⟩
  · constructor
    · rintro ⟨v, hv⟩
      rw [if_pos h] at hv
      simp at hv
    · intro he; exact absurd he h

/-! ## Claim C9: warm-cache temporal segmentation -/

/-- C9: when the Timeline for a video id is already cached, the Executor's
temporal branch returns exactly the cached Timeline, performs zero oracle
labeling calls, and leaves the cache unchanged (the whole
observation-through-reconstruction pipeline is skipped). -/
theorem temporal_branch_cache_hit (cache : CacheData) (video_id : String)
    (toolOutput : Timeline) (toolOracleCalls : ℕ) (t : Timeline)
    (hhit : get_item cache TEMPORAL_CACHE_CATEGORY video_id = some t) :
    runTemporalBranch cache video_id toolOutput toolOracleCalls =
      (t, 0, cache) := by
  unfold runTemporalBranch
  rw [hhit]

/-- Witness for C9: a concrete cache holding a Timeline for video `v1`. -/
theorem temporal_branch_cache_hit_witness :
    runTemporalBranch
        [(TEMPORAL_CACHE_CATEGORY, [("v1", [("hand_hygiene", (0, 5))])])]
        "v1" [("other", (1, 2))] 25 =
      ([("hand_hygiene", (0, 5))], 0,
        [(TEMPORAL_CACHE_CATEGORY, [("v1", [("hand_hygiene", (0, 5))])])]) :=
  temporal_branch_cache_hit _ _ _ _ _ (by decide)

/-! ## Claim C8: merged timeline invariants -/

/-- The merge loop always returns a list whose head carries the label of
the open segment. -/
theorem mergeLoop_exists_head : ∀ (l : List (String × (ℚ × ℚ)))
    (cur : String × (ℚ × ℚ)),
    ∃ h t, mergeLoop cur l = h :: t ∧ h.1 = cur.1
  | [], cur => ⟨cur, [], rfl, rfl⟩
  | nxt :: rest, cur => by
    unfold mergeLoop
    by_cases h : nxt.1 = cur.1
    · rw [if_pos h]
      obtain ⟨hd, tl, heq, hlab⟩ :=
        mergeLoop_exists_head rest (cur.1, (cur.2.1, nxt.2.2))
      exact ⟨hd, tl, heq, hlab⟩
    · rw [if_neg h]
      exact ⟨cur, mergeLoop nxt rest, rfl, rfl⟩

/-- The merge loop never leaves two consecutive segments with the same
label. -/
theorem mergeLoop_chain : ∀ (l : List (String × (ℚ × ℚ)))
    (cur : String × (ℚ × ℚ)),
    List.Chain' (fun s t => s.1 ≠ t.1) (mergeLoop cur l)
  | [], cur => by simp [mergeLoop]
  | nxt :: rest, cur => by
    unfold mergeLoop
    by_cases h : nxt.1 = cur.1
    · rw [if_pos h]
      exact mergeLoop_chain rest (cur.1, (cur.2.1, nxt.2.2))
    · rw [if_neg h]
      rw [List.chain'_cons']
      refine ⟨?_, mergeLoop_chain rest nxt⟩
      intro y hy
      obtain ⟨hd, tl, heq, hlab⟩ := mergeLoop_exists_head rest nxt
      rw [heq] at hy
      simp only [List.head?_cons, Option.mem_def, Option.some.injEq] at hy
      rw [hy] at hlab
      rw [hlab]
      exact fun hc => h hc.symm

/-- A part of a run decomposition: nonempty, all labels equal to the head
label. -/
def IsRun (p : List (String × (ℚ × ℚ))) : Prop :=
  p ≠ [] ∧ ∀ x ∈ p, x.1 = (p.headD default).1

/-- The span of a run: its head label, the head's start time and the last
element's end time. -/
def runSpan (p : List (String × (ℚ × ℚ))) : String × (ℚ × ℚ) :=
  ((p.headD default).1, ((p.headD default).2.1, (p.getLastD default).2.2))

/-- The merge loop computes exactly the run decomposition of its input:
the parts concatenate back to the unmerged sequence, each part is a
nonempty run of one label, and each output segment is its part's span
(first start time through last end time). -/
theorem mergeLoop_parts : ∀ (l : List (String × (ℚ × ℚ)))
    (cur : String × (ℚ × ℚ)),
    ∃ parts : List (List (String × (ℚ × ℚ))),
      parts.flatten = cur :: l ∧ (∀ p ∈ parts, IsRun p) ∧
      mergeLoop cur l = parts.map runSpan
  | [], cur => by
    refine ⟨[[cur]], by simp, ?_, ?_⟩
    · intro p hp
      simp only [List.mem_singleton] at hp
      subst hp
      exact ⟨by simp, by simp⟩
    · simp [mergeLoop, runSpan]
  | nxt :: rest, cur => by
    unfold mergeLoop
    by_cases h : nxt.1 = cur.1
    · rw [if_pos h]
      obtain ⟨parts, hjoin, hruns, heq⟩ :=
        mergeLoop_parts rest (cur.1, (cur.2.1, nxt.2.2))
      have hne : parts ≠ [] := by
        intro h0
        rw [h0] at hjoin
        simp at hjoin
      obtain ⟨p, ps, rfl⟩ := List.exists_cons_of_ne_nil hne
      have hpne : p ≠ [] := (hruns p (by simp)).1
      obtain ⟨a, p1, rfl⟩ := List.exists_cons_of_ne_nil hpne
      simp only [List.flatten_cons, List.cons_append, List.cons.injEq] at hjoin
      obtain ⟨ha, hrest⟩ := hjoin
      refine ⟨(cur :: nxt :: p1) :: ps, ?_, ?_, ?_⟩
      · simp [hrest]
      · intro p hp
        rcases List.mem_cons.mp hp with hp1 | hp2
        · subst hp1
          refine ⟨by simp, ?_⟩
          intro x hx
          simp only [List.headD_cons]
          rcases List.mem_cons.mp hx with hx1 | hx2
          · rw [hx1]
          · rcases List.mem_cons.mp hx2 with hx3 | hx4
            · rw [hx3]; exact h
            · have hx5 := (hruns (a :: p1) (by simp)).2 x (by simp [hx4])
              rw [ha] at hx5
              simpa [List.headD_cons] using hx5
        · exact hruns p (by simp [hp2])
      · rw [heq]
        simp only [List.map_cons]
        congr 1
        unfold runSpan
        simp only [List.headD_cons]
        rw [ha]
        rcases p1 with _ | ⟨b, p2⟩
        · simp [List.getLastD_cons]
        · simp [List.getLastD_cons]
    · rw [if_neg h]
      obtain ⟨parts, hjoin, hruns, heq⟩ := mergeLoop_parts rest nxt
      refine ⟨[cur] :: parts, by simp [hjoin], ?_, ?_⟩
      · intro p hp
        rcases List.mem_cons.mp hp with hp1 | hp2
        · subst hp1; exact ⟨by simp, by simp⟩
        · exact hruns p hp2
      · rw [heq]
        simp [runSpan]

/-- C8: with matching lengths and `merge_consecutive = true`,
`reconstruct_temporal_action_sequence` returns a timeline in which no two
consecutive segments share a label, and which is exactly the list of run
spans of the unmerged smoothed sequence: each merged segment takes the
first merged window's start time and the last merged window's end time,
and the runs concatenate back to the unmerged sequence. -/
theorem reconstruct_merged_invariants (best_path_ids : List ℕ)
    (original_input_sequence : List (String × (ℚ × ℚ)))
    (idMap : List (ℕ × String))
    (hlen : best_path_ids.length = original_input_sequence.length) :
    ∃ m, reconstruct_temporal_action_sequence best_path_ids
        original_input_sequence idMap true = .ok m ∧
      List.Chain' (fun s t => s.1 ≠ t.1) m ∧
      ∃ parts : List (List (String × (ℚ × ℚ))),
        parts.flatten =
          unmergedSmoothedSequence best_path_ids original_input_sequence idMap ∧
        (∀ p ∈ parts, IsRun p) ∧ m = parts.map runSpan := by
  unfold reconstruct_temporal_action_sequence
  rw [if_neg (not_not_intro hlen)]
  simp only [Bool.true_eq_false, if_false]
  cases hu : unmergedSmoothedSequence best_path_ids original_input_sequence idMap with
  | nil => exact ⟨[], rfl, by simp, ⟨[], by simp [hu], by simp, by simp⟩⟩
  | cons s rest =>
    obtain ⟨parts, hjoin, hruns, heq⟩ := mergeLoop_parts rest s
    exact ⟨mergeLoop s rest, rfl, mergeLoop_chain rest s,
      ⟨parts, by rw [hjoin], hruns, heq⟩⟩

/-- Witness for C8 on a concrete decoded path and observation sequence. -/
theorem reconstruct_merged_invariants_witness :
    ∃ m, reconstruct_temporal_action_sequence [0, 0, 1]
        [("A", (0, 2)), ("B", (1, 3)), ("C", (2, 4))]
        [(0, "X"), (1, "Y")] true = .ok m ∧
      List.Chain' (fun s t => s.1 ≠ t.1) m ∧
      ∃ parts : List (List (String × (ℚ × ℚ))),
        parts.flatten = unmergedSmoothedSequence [0, 0, 1]
          [("A", (0, 2)), ("B", (1, 3)), ("C", (2, 4))] [(0, "X"), (1, "Y")] ∧
        (∀ p ∈ parts, IsRun p) ∧ m = parts.map runSpan :=
  reconstruct_merged_invariants [0, 0, 1]
    [("A", (0, 2)), ("B", (1, 3)), ("C", (2, 4))] [(0, "X"), (1, "Y")] rfl

/-! ## Soft emission matrix (`build_soft_emission_matrix`)

The source stores an `S × K` matrix of LOG scores.  The embedding stores,
in exact rationals, the exponentials of those log scores: `log(p)` is
stored as `p`, `log((1-p)/(K-1))` as `(1-p)/(K-1)`, and the `-1e9`
sentinel used for a zero probability as `0`, which is exactly the value
`math.exp(-1e9)` evaluates to in double precision.  This is the matrix
"exponentiated" entrywise, so row sums here are the exponentiated row
sums of the source matrix. -/

/-- `build_soft_emission_matrix` in probability space.  The `ValueError`
for `p_correct_emission` outside `(0, 1]` is modelled as `Except.error`;
the empty-vocabulary and empty-sequence early returns mirror the source;
an out-of-vocabulary observed label leaves its row at the uniform
incorrect floor. -/
def build_soft_emission_matrix (temporal_sequence : List (String × (ℚ × ℚ)))
    (action_label_to_id_map : List (String × ℕ))
    (p_correct_emission : ℚ) : Except String (List (List ℚ)) :=
  let K := action_label_to_id_map.length
  if K = 0 then .ok (temporal_sequence.map (fun _ => []))
  else if temporal_sequence.length = 0 then .ok []
  else if ¬(0 < p_correct_emission ∧ p_correct_emission ≤ 1) then
    .error "p_correct_emission must be between 0 (exclusive) and 1 (inclusive)."
  else
    let pIncorrect : ℚ :=
      if K = 1 then 0 else (1 - p_correct_emission) / ((K : ℚ) - 1)
    .ok (temporal_sequence.map (fun obs =>
      match action_label_to_id_map.find? (fun pr => pr.1 == obs.1) with
      | none => List.replicate K pIncorrect
      | some pr => (List.range K).map
          (fun k => if k = pr.2 then p_correct_emission else pIncorrect)))

/-- Sum of a two-valued map over `List.range K` with exactly one special
index. -/
theorem sum_map_range_ite (K id : ℕ) (hid : id < K) (c d : ℚ) :
    ((List.range K).map (fun k => if k = id then c else d)).sum =
      c + ((K : ℚ) - 1) * d := by
  induction K with
  | zero => omega
  | succ n ih =>
    rw [List.range_succ, List.map_append, List.sum_append]
    by_cases h : id = n
    · subst h
      have hall : ∀ k ∈ List.range id, (if k = id then c else d) = d := by
        intro k hk
        rw [List.mem_range] at hk
        rw [if_neg (by omega)]
      rw [List.map_congr_left hall]
      simp only [List.map_const', List.sum_replicate, List.length_range,
        List.map_cons, List.map_nil, List.sum_cons, List.sum_nil,
        if_pos rfl, smul_eq_mul]
      push_cast
      ring
    · have hid2 : id < n := by omega
      rw [ih hid2]
      simp only [List.map_cons, List.map_nil, List.sum_cons, List.sum_nil]
      rw [if_neg (show ¬n = id by omega)]
      push_cast
      ring

/-- C4 counterexample: the claim fails for an observation sequence whose
label is out of vocabulary.  With vocabulary `[A, B]`, observation `Z`
and `p_correct = 4/5`, the emission row exponentiates to `[1/5, 1/5]`,
whose sum `2/5` is not within `1e-6` of `1`. -/
theorem soft_emission_row_sum_counterexample :
    build_soft_emission_matrix [("Z", (0, 1))] [("A", 0), ("B", 1)] (4 / 5) =
        .ok [[1 / 5, 1 / 5]] ∧
      ¬(|((1 : ℚ) / 5 + 1 / 5) - 1| ≤ 1 / 10 ^ 6) := by
  constructor
  · norm_num [build_soft_emission_matrix, List.find?, List.range,
      List.range.loop, List.replicate]
    simp only [show (("A" == "Z") : Bool) = false from by decide,
      show (("B" == "Z") : Bool) = false from by decide]
  · rw [abs_le]
    norm_num

/-- C4 (amended): for every observation sequence all of whose observed
labels are in the vocabulary, every `p_correct` in `(0, 1]`, and `K ≥ 2`
action labels with ids in range, every row of the soft emission matrix
has exponentiated sum exactly `1`, hence within `1e-6` of `1`. -/
theorem soft_emission_rows_sum_one (temporal_sequence : List (String × (ℚ × ℚ)))
    (action_label_to_id_map : List (String × ℕ)) (p : ℚ)
    (hK : 2 ≤ action_label_to_id_map.length)
    (hids : ∀ pr ∈ action_label_to_id_map, pr.2 < action_label_to_id_map.length)
    (hp0 : 0 < p) (hp1 : p ≤ 1)
    (hvocab : ∀ obs ∈ temporal_sequence,
      obs.1 ∈ action_label_to_id_map.map Prod.fst) :
    ∃ E, build_soft_emission_matrix temporal_sequence action_label_to_id_map p =
        .ok E ∧ ∀ row ∈ E, |row.sum - 1| ≤ 1 / 10 ^ 6 := by
  unfold build_soft_emission_matrix
  rw [if_neg (by omega), if_neg (not_not_intro ⟨hp0, hp1⟩)]
  by_cases hs : temporal_sequence.length = 0
  · rw [if_pos hs]
    exact ⟨[], rfl, by simp⟩
  · rw [if_neg hs]
    refine ⟨_, rfl, ?_⟩
    intro row hrow
    rw [List.mem_map] at hrow
    obtain ⟨obs, hobs, hrow⟩ := hrow
    have hK1 : action_label_to_id_map.length ≠ 1 := by omega
    rw [if_neg hK1] at hrow
    cases hfind : action_label_to_id_map.find? (fun pr => pr.1 == obs.1) with
    | none =>
      exfalso
      have := hvocab obs hobs
      rw [List.mem_map] at this
      obtain ⟨pr, hpr, hfst⟩ := this
      have := List.find?_eq_none.mp hfind pr hpr
      simp [hfst] at this
    | some pr =>
      rw [hfind] at hrow
      have hprmem : pr ∈ action_label_to_id_map := List.mem_of_find?_eq_some hfind
      have hid : pr.2 < action_label_to_id_map.length := hids pr hprmem
      rw [← hrow, sum_map_range_ite _ _ hid]
      have hKcast : (2 : ℚ) ≤ (action_label_to_id_map.length : ℚ) := by
        exact_mod_cast hK
      have hne : ((action_label_to_id_map.length : ℚ) - 1) ≠ 0 := by linarith
      rw [mul_div_cancel₀ _ hne]
      simp

/-- Witness for C4 (amended) at a concrete in-vocabulary sequence. -/
theorem soft_emission_rows_sum_one_witness :
    ∃ E, build_soft_emission_matrix [("A", (0, 1)), ("B", (1, 2))]
        [("A", 0), ("B", 1), ("C", 2)] (4 / 5) = .ok E ∧
      ∀ row ∈ E, |row.sum - 1| ≤ 1 / 10 ^ 6 :=
  soft_emission_rows_sum_one [("A", (0, 1)), ("B", (1, 2))]
    [("A", 0), ("B", 1), ("C", 2)] (4 / 5) (by decide) (by decide)
    (by norm_num) (by norm_num) (by decide)

/-- C5: an out-of-vocabulary observed label raises no exception and
yields a row all of whose `K` entries equal the uniform incorrect floor,
which in probability space is `(1 - p_correct)/(K - 1)` (the exponential
of the stored `log((1-p)/(K-1))`, and `0` at `p_correct = 1` where the
source stores the `-1e9` sentinel). -/
theorem soft_emission_oov_row (temporal_sequence : List (String × (ℚ × ℚ)))
    (action_label_to_id_map : List (String × ℕ)) (p : ℚ)
    (hK : 2 ≤ action_label_to_id_map.length)
    (hp0 : 0 < p) (hp1 : p ≤ 1) (w : ℕ) (hw : w < temporal_sequence.length)
    (hoov : (temporal_sequence.get ⟨w, hw⟩).1 ∉
      action_label_to_id_map.map Prod.fst) :
    ∃ E, build_soft_emission_matrix temporal_sequence action_label_to_id_map p =
        .ok E ∧
      E.get? w = some (List.replicate action_label_to_id_map.length
        ((1 - p) / ((action_label_to_id_map.length : ℚ) - 1))) := by
  unfold build_soft_emission_matrix
  rw [if_neg (by omega), if_neg (by omega), if_neg (not_not_intro ⟨hp0, hp1⟩)]
  refine ⟨_, rfl, ?_⟩
  rw [List.get?_map]
  have hget : temporal_sequence.get? w = some (temporal_sequence.get ⟨w, hw⟩) :=
    List.get?_eq_get hw
  rw [hget]
  simp only [Option.map_some']
  have hfind : action_label_to_id_map.find?
      (fun pr => pr.1 == (temporal_sequence.get ⟨w, hw⟩).1) = none := by
    rw [List.find?_eq_none]
    intro pr hpr
    simp only [beq_iff_eq]
    intro hc
    exact hoov (List.mem_map.mpr ⟨pr, hpr, hc⟩)
  rw [hfind, if_neg (by omega)]

/-- Witness for C5: vocabulary `[A, B]`, the single observation `Z` is
out of vocabulary; the emission row is the uniform floor `[1/5, 1/5]`. -/
theorem soft_emission_oov_row_witness :
    ∃ E, build_soft_emission_matrix [("Z", (0, 1))] [("A", 0), ("B", 1)]
        (4 / 5) = .ok E ∧
      E.get? 0 = some (List.replicate 2 ((1 - 4 / 5) / ((2 : ℚ) - 1))) :=
  soft_emission_oov_row [("Z", (0, 1))] [("A", 0), ("B", 1)] (4 / 5)
    (by decide) (by norm_num) (by norm_num) 0 (by decide) (by decide)

/-! ## Overlapping clip windows (`generate_overlapping_clip_time_segments`)

The video duration (`total_frames / fps`, an I/O read in the source) is
passed as the argument `video_duration`.  Python `round(x, 2)` rounds
half to even; on exact rationals this is `roundHalfEven (100 x) / 100`. -/

/-- Round half to even (the rounding of Python `round`). -/
def roundHalfEven (q : ℚ) : ℤ :=
  let f := ⌊q⌋
  let r := q - f
  if r < 1 / 2 then f
  else if 1 / 2 < r then f + 1
  else if f % 2 = 0 then f else f + 1

/-- Python `round(x, 2)`. -/
def round2 (q : ℚ) : ℚ := (roundHalfEven (q * 100) : ℚ) / 100

/-- The `for i in range(num_clips)` loop of
`generate_overlapping_clip_time_segments`: `k` is the number of windows
still to produce, `cur` the current start time.  Every non-final window
ends at `min (start + clip_length) duration`; the final window ends at
the duration; the next start is `end_time - clip_stride` clamped into
`[0, duration]`. -/
def segmentsAux (L D S : ℚ) : ℕ → ℚ → List (ℚ × ℚ)
  | 0, _ => []
  | 1, cur => [(round2 cur, round2 L)]
  | k + 2, cur =>
    let e := min (cur + D) L
    (round2 cur, round2 e) ::
      segmentsAux L D S (k + 1) (min (max 0 (e - S)) L)

/-- `generate_overlapping_clip_time_segments(video, num_clips,
clip_stride)` with the video duration passed directly.  `clip_length` is
`(L + (num_clips - 1) * stride) / num_clips`. -/
def generate_overlapping_clip_time_segments (video_duration : ℚ)
    (num_clips : ℕ) (clip_stride : ℚ) : List (ℚ × ℚ) :=
  let clip_length :=
    (video_duration + ((num_clips : ℚ) - 1) * clip_stride) / (num_clips : ℚ)
  segmentsAux video_duration clip_length clip_stride num_clips 0

/-- C3 counterexample: at duration `L = 10`, `M = 3` windows, stride
`S = 2` (so `D = 14/3`), the code returns windows
`[(0, 4.67), (2.67, 7.33), (5.33, 10)]`: the rounded windows do not all
have length `D`, and the first two adjacent windows overlap by
`4.67 - 2.67 = 2 = S`, not by `D - S = 8/3`. -/
theorem windowing_counterexample :
    generate_overlapping_clip_time_segments 10 3 2 =
        [(0, 467 / 100), (267 / 100, 733 / 100), (533 / 100, 10)] ∧
      ¬((467 / 100 : ℚ) - 0 = (10 + ((3 : ℚ) - 1) * 2) / 3) ∧
      ¬((467 / 100 : ℚ) - 267 / 100 = (10 + ((3 : ℚ) - 1) * 2) / 3 - 2) := by
  refine ⟨?_, by norm_num, by norm_num⟩
  show segmentsAux 10 ((10 + ((3 : ℚ) - 1) * 2) / (3 : ℚ)) 2 3 0 = _
  have hD : (10 + ((3 : ℚ) - 1) * 2) / (3 : ℚ) = 14 / 3 := by norm_num
  rw [hD]
  have h1 : round2 0 = 0 := by
    norm_num [round2, roundHalfEven]
  have h2 : round2 (14 / 3) = 467 / 100 := by
    norm_num [round2, roundHalfEven]
  have h3 : round2 (8 / 3) = 267 / 100 := by
    norm_num [round2, roundHalfEven]
  have h4 : round2 (22 / 3) = 733 / 100 := by
    norm_num [round2, roundHalfEven]
  have h5 : round2 (16 / 3) = 533 / 100 := by
    norm_num [round2, roundHalfEven]
  have h6 : round2 10 = 10 := by
    norm_num [round2, roundHalfEven]
  show (round2 0, round2 (min (0 + 14 / 3) 10)) ::
      segmentsAux 10 (14 / 3) 2 2 (min (max 0 (min (0 + 14 / 3) 10 - 2)) 10) = _
  rw [show min ((0 : ℚ) + 14 / 3) 10 = 14 / 3 by norm_num [min_def],
    show min (max (0 : ℚ) (14 / 3 - 2)) 10 = 8 / 3 by
      norm_num [min_def, max_def]]
  show (round2 0, round2 (14 / 3)) ::
      (round2 (8 / 3), round2 (min (8 / 3 + 14 / 3) 10)) ::
      segmentsAux 10 (14 / 3) 2 1 (min (max 0 (min (8 / 3 + 14 / 3) 10 - 2)) 10) = _
  rw [show min ((8 : ℚ) / 3 + 14 / 3) 10 = 22 / 3 by norm_num [min_def],
    show min (max (0 : ℚ) (22 / 3 - 2)) 10 = 16 / 3 by
      norm_num [min_def, max_def]]
  show (round2 0, round2 (14 / 3)) :: (round2 (8 / 3), round2 (22 / 3)) ::
      [(round2 (16 / 3), round2 10)] = _
  rw [h1, h2, h3, h4, h5, h6]

/-- Closed form of the window loop when the stride does not exceed the
duration: starting `k`-windows-from-the-end at start time `j*(D-S)` with
`j + k = M`, the loop emits the windows with start times stepping by
`D - S` and every non-final end at `start + D`, the final end at `L`. -/
theorem segmentsAux_spec (L S D : ℚ) (M : ℕ) (hM : 1 ≤ M) (hS : 0 < S)
    (hSL : S ≤ L) (hD : D = (L + ((M : ℚ) - 1) * S) / (M : ℚ)) :
    ∀ (k j : ℕ), 1 ≤ k → j + k = M →
      segmentsAux L D S k ((j : ℚ) * (D - S)) =
        (List.range k).map (fun t =>
          (round2 (((j + t : ℕ) : ℚ) * (D - S)),
           round2 (if j + t = M - 1 then L
             else ((j + t : ℕ) : ℚ) * (D - S) + D)))
  | 0, j, hk, hjk => absurd hk (by omega)
  | 1, j, hk, hjk => by
    have hj : j = M - 1 := by omega
    subst hj
    have hr1 : List.range 1 = [0] := rfl
    rw [hr1]
    simp only [segmentsAux, List.map_cons, List.map_nil, Nat.add_zero,
      if_pos rfl]
    simp
  | k + 2, j, hk, hjk => by
    have hM0 : (0 : ℚ) < (M : ℚ) := by
      exact_mod_cast Nat.lt_of_lt_of_le Nat.zero_lt_one hM
    have hMD : (M : ℚ) * D = L + ((M : ℚ) - 1) * S := by
      rw [hD, mul_div_cancel₀ _ (ne_of_gt hM0)]
    have hDS : 0 ≤ D - S := by
      have : (M : ℚ) * (D - S) = L - S := by
        rw [mul_sub, hMD]; ring
      have hLS : 0 ≤ L - S := by linarith
      nlinarith
    have hlast : ((M : ℚ) - 1) * (D - S) + D = L := by
      linear_combination hMD
    have hjle : (j : ℚ) ≤ (M : ℚ) - 2 := by
      have : (j : ℚ) + ((k : ℚ) + 2) = (M : ℚ) := by exact_mod_cast hjk
      have hk0 : (0 : ℚ) ≤ (k : ℚ) := Nat.cast_nonneg k
      linarith
    have hcur0 : 0 ≤ (j : ℚ) * (D - S) :=
      mul_nonneg (Nat.cast_nonneg j) hDS
    have hcurD : (j : ℚ) * (D - S) + D ≤ L := by
      have h1 : (j : ℚ) * (D - S) ≤ ((M : ℚ) - 1) * (D - S) :=
        mul_le_mul_of_nonneg_right (by linarith) hDS
      linarith
    have hmin1 : min ((j : ℚ) * (D - S) + D) L = (j : ℚ) * (D - S) + D :=
      min_eq_left hcurD
    have hmax : max 0 ((j : ℚ) * (D - S) + D - S) =
        (j : ℚ) * (D - S) + D - S :=
      max_eq_right (by linarith)
    have hnext : (j : ℚ) * (D - S) + D - S ≤ L := by linarith
    have hstep : (j : ℚ) * (D - S) + D - S = ((j + 1 : ℕ) : ℚ) * (D - S) := by
      push_cast
      ring
    have ih := segmentsAux_spec L S D M hM hS hSL hD (k + 1) (j + 1)
      (by omega) (by omega)
    show (round2 ((j : ℚ) * (D - S)), round2 (min ((j : ℚ) * (D - S) + D) L)) ::
        segmentsAux L D S (k + 1)
          (min (max 0 (min ((j : ℚ) * (D - S) + D) L - S)) L) = _
    rw [hmin1, hmax, min_eq_left hnext, hstep, ih]
    have hrange : List.range (k + 2) = 0 :: (List.range (k + 1)).map Nat.succ :=
      List.range_succ_eq_map (k + 1)
    rw [hrange, List.map_cons, List.map_map]
    congr 1
    · have hj1 : ¬(j + 0 = M - 1) := by omega
      rw [if_neg hj1]
      simp
    · apply List.map_congr_left
      intro t ht
      have harg : j + 1 + t = j + Nat.succ t := by omega
      simp only [Function.comp_apply, harg]

/-- C3 (amended): for duration `L`, window count `M ≥ 1` and stride
`0 < S ≤ L`, the code produces exactly `M` windows; before the 2-decimal
output rounding, window `i` is `[i*(D-S), i*(D-S)+D)` (with the final end
forced to `L`), so the pre-rounding windows have uniform length
`D = (L+(M-1)*S)/M`, the last ends exactly at `L`, adjacent starts are
`D - S` apart, and adjacent windows overlap by `S` (not by `D - S`). -/
theorem windowing_closed_form (L S : ℚ) (M : ℕ) (hM : 1 ≤ M) (hS : 0 < S)
    (hSL : S ≤ L) :
    generate_overlapping_clip_time_segments L M S =
        (List.range M).map (fun (i : ℕ) =>
          (round2 ((i : ℚ) * ((L + ((M : ℚ) - 1) * S) / (M : ℚ) - S)),
           round2 (if i = M - 1 then L
             else (i : ℚ) * ((L + ((M : ℚ) - 1) * S) / (M : ℚ) - S) +
               (L + ((M : ℚ) - 1) * S) / (M : ℚ)))) ∧
      (generate_overlapping_clip_time_segments L M S).length = M ∧
      ∀ i : ℕ, (((i : ℚ) * ((L + ((M : ℚ) - 1) * S) / (M : ℚ) - S) +
          (L + ((M : ℚ) - 1) * S) / (M : ℚ)) -
          (((i : ℚ) + 1) * ((L + ((M : ℚ) - 1) * S) / (M : ℚ) - S))) = S := by
    have hbody := segmentsAux_spec L S ((L + ((M : ℚ) - 1) * S) / (M : ℚ)) M
      hM hS hSL rfl M 0 hM (by omega)
    have hzero : ((0 : ℕ) : ℚ) * ((L + ((M : ℚ) - 1) * S) / (M : ℚ) - S) = 0 := by
      norm_num
    rw [hzero] at hbody
    have hmain : generate_overlapping_clip_time_segments L M S =
        (List.range M).map (fun (i : ℕ) =>
          (round2 ((i : ℚ) * ((L + ((M : ℚ) - 1) * S) / (M : ℚ) - S)),
           round2 (if i = M - 1 then L
             else (i : ℚ) * ((L + ((M : ℚ) - 1) * S) / (M : ℚ) - S) +
               (L + ((M : ℚ) - 1) * S) / (M : ℚ)))) := by
      show segmentsAux L ((L + ((M : ℚ) - 1) * S) / (M : ℚ)) S M 0 = _
      rw [hbody]
      apply List.map_congr_left
      intro t ht
      simp only [Nat.zero_add]
    refine ⟨hmain, ?_, ?_⟩
    · rw [hmain, List.length_map, List.length_range]
    · intro i
      ring

/-- Witness for C3 (amended) at `L = 10`, `M = 4`, `S = 1`. -/
theorem windowing_closed_form_witness :
    generate_overlapping_clip_time_segments 10 4 1 =
        (List.range 4).map (fun (i : ℕ) =>
          (round2 ((i : ℚ) * ((10 + ((4 : ℚ) - 1) * 1) / (4 : ℚ) - 1)),
           round2 (if i = 4 - 1 then 10
             else (i : ℚ) * ((10 + ((4 : ℚ) - 1) * 1) / (4 : ℚ) - 1) +
               (10 + ((4 : ℚ) - 1) * 1) / (4 : ℚ)))) ∧
      (generate_overlapping_clip_time_segments 10 4 1).length = 4 ∧
      ∀ i : ℕ, (((i : ℚ) * ((10 + ((4 : ℚ) - 1) * 1) / (4 : ℚ) - 1) +
          (10 + ((4 : ℚ) - 1) * 1) / (4 : ℚ)) -
          (((i : ℚ) + 1) * ((10 + ((4 : ℚ) - 1) * 1) / (4 : ℚ) - 1))) = 1 :=
  windowing_closed_form 10 1 4 (by omega) (by norm_num) (by norm_num)

/-! ## Keyframe selection by clustering (`video_processor.py`)

`extract_keyframes_by_clustering` samples candidate frames, embeds them,
and calls `cluster_and_select_keyframes`, which runs sklearn K-means and
picks, per cluster, the member closest to the centroid.  Frames are
modelled as opaque naturals; the K-means fit (an external iterative
floating-point routine) is modelled by passing its outputs — the per-
candidate cluster labels and the cluster centers — as arguments.
`euclidean_distances` compares by the Euclidean metric; the embedding
uses squared distances, which have the same `argmin` (including the
first-index tie rule) since `sqrt` is strictly monotone. -/

/-- Squared Euclidean distance of two embedding vectors. -/
def sqDist (u v : List ℚ) : ℚ :=
  ((u.zip v).map (fun pr => (pr.1 - pr.2) * (pr.1 - pr.2))).sum

/-- Python `sorted(..., key=lambda x: x[1])` / `.sort(key=lambda x: x[1])`:
stable ascending sort by timestamp. -/
def sortByTimestamp (l : List (ℕ × ℚ)) : List (ℕ × ℚ) :=
  List.insertionSort (fun a b => a.2 ≤ b.2) l

/-- The per-cluster selection loop of `cluster_and_select_keyframes`:
for each cluster index, the member indices (`np.where(labels == i)`),
the member closest to the centroid (`np.argmin` of distances), skipped
if the cluster is empty or its representative was already selected.
The accumulator carries `(selected_keyframes_data,
selected_original_indices)`. -/
def selectStep (images : List ℕ) (ts : List ℚ) (emb : List (List ℚ))
    (clusterLabels : List ℕ) (centers : List (List ℚ))
    (acc : List (ℕ × ℚ) × List ℕ) (i : ℕ) : List (ℕ × ℚ) × List ℕ :=
  let members := (List.range clusterLabels.length).filter
    (fun j => clusterLabels.getD j 0 == i)
  if members = [] then acc
  else
    let dists := members.map (fun j => sqDist (emb.getD j []) (centers.getD i []))
    let closest := argminIdx dists
    let orig := members.getD closest 0
    if orig ∈ acc.2 then acc
    else (acc.1 ++ [(images.getD orig 0, ts.getD orig 0)], acc.2 ++ [orig])

/-- `cluster_and_select_keyframes(images, timestamps, embeddings,
num_keyframes)` with the K-means outputs passed in: guards for empty
embeddings, image/embedding length mismatch and zero clusters mirror the
source; then one representative per nonempty cluster, de-duplicated,
sorted by timestamp. -/
def cluster_and_select_keyframes (images : List ℕ) (ts : List ℚ)
    (emb : List (List ℚ)) (num_keyframes : ℕ) (clusterLabels : List ℕ)
    (centers : List (List ℚ)) : List (ℕ × ℚ) :=
  if emb.length = 0 then []
  else if images.length ≠ emb.length then []
  else
    let actual := min num_keyframes emb.length
    if actual = 0 then []
    else
      sortByTimestamp
        ((List.range actual).foldl
          (selectStep images ts emb clusterLabels centers) ([], [])).1

/-- `extract_keyframes_by_clustering`: when there are at most
`num_keyframes` candidates, return them all sorted by timestamp;
otherwise cluster and select (frame sampling and embedding generation
are I/O and modelled by the candidate lists). -/
def extract_keyframes_by_clustering (images : List ℕ) (ts : List ℚ)
    (emb : List (List ℚ)) (num_keyframes : ℕ) (clusterLabels : List ℕ)
    (centers : List (List ℚ)) : List (ℕ × ℚ) :=
  if images.length ≤ num_keyframes then sortByTimestamp (images.zip ts)
  else cluster_and_select_keyframes images ts emb num_keyframes
    clusterLabels centers

/-- The argmin scan stays below the index bound. -/
theorem argminAux_lt : ∀ (l : List ℚ) (best : ℕ) (bv : ℚ) (idx : ℕ),
    best < idx → argminAux best bv idx l < idx + l.length
  | [], best, bv, idx, h => by simpa using h
  | x :: rest, best, bv, idx, h => by
    unfold argminAux
    by_cases hx : x < bv
    · rw [if_pos hx]
      have := argminAux_lt rest idx x (idx + 1) (Nat.lt_succ_self idx)
      simpa [Nat.add_comm, Nat.add_assoc, Nat.add_left_comm] using this
    · rw [if_neg hx]
      have := argminAux_lt rest best bv (idx + 1) (Nat.lt_succ_of_lt h)
      simpa [Nat.add_comm, Nat.add_assoc, Nat.add_left_comm] using this

/-- `np.argmin` of a nonempty list is a valid index. -/
theorem argminIdx_lt (l : List ℚ) (h : l ≠ []) : argminIdx l < l.length := by
  cases l with
  | nil => exact absurd rfl h
  | cons x rest =>
    show argminAux 0 x 1 rest < rest.length + 1
    have := argminAux_lt rest 0 x 1 Nat.zero_lt_one
    omega

/-- One cluster-selection step preserves the selection invariant: the
selected data is the image of the selected indices, the indices are
distinct and in range, and at most one index is added. -/
theorem selectStep_invariant (images : List ℕ) (ts : List ℚ)
    (emb : List (List ℚ)) (clusterLabels : List ℕ)
    (centers : List (List ℚ)) (acc : List (ℕ × ℚ) × List ℕ) (i : ℕ)
    (hmap : acc.1 = acc.2.map (fun j => (images.getD j 0, ts.getD j 0)))
    (hnd : acc.2.Nodup) (hlt : ∀ j ∈ acc.2, j < clusterLabels.length) :
    (selectStep images ts emb clusterLabels centers acc i).1 =
        ((selectStep images ts emb clusterLabels centers acc i).2).map
          (fun j => (images.getD j 0, ts.getD j 0)) ∧
      ((selectStep images ts emb clusterLabels centers acc i).2).Nodup ∧
      (∀ j ∈ (selectStep images ts emb clusterLabels centers acc i).2,
        j < clusterLabels.length) ∧
      ((selectStep images ts emb clusterLabels centers acc i).2).length ≤
        acc.2.length + 1 := by
  unfold selectStep
  by_cases hmem : ((List.range clusterLabels.length).filter
      (fun j => clusterLabels.getD j 0 == i)) = []
  · rw [if_pos hmem]
    exact ⟨hmap, hnd, hlt, by omega⟩
  · rw [if_neg hmem]
    set members := (List.range clusterLabels.length).filter
      (fun j => clusterLabels.getD j 0 == i) with hmembers
    set dists := members.map
      (fun j => sqDist (emb.getD j []) (centers.getD i [])) with hdists
    set orig := members.getD (argminIdx dists) 0 with horig
    have hidx : argminIdx dists < members.length := by
      have hne : dists ≠ [] := by
        rw [hdists]
        intro hc
        exact hmem (List.map_eq_nil.mp hc)
      have := argminIdx_lt dists hne
      rwa [hdists, List.length_map] at this
    have horigmem : orig ∈ members := by
      rw [horig, List.getD_eq_getElem _ _ hidx]
      exact List.getElem_mem _
    have horiglt : orig < clusterLabels.length := by
      have := List.mem_filter.mp (hmembers ▸ horigmem)
      exact List.mem_range.mp this.1
    by_cases hsel : orig ∈ acc.2
    · rw [if_pos hsel]
      exact ⟨hmap, hnd, hlt, by omega⟩
    · rw [if_neg hsel]
      refine ⟨by simp [hmap], ?_, ?_, by simp⟩
      · rw [List.nodup_append]
        refine ⟨hnd, List.nodup_singleton _, ?_⟩
        intro a ha hb
        rw [List.mem_singleton] at hb
        subst hb
        exact hsel ha
      · intro j hj
        rcases List.mem_append.mp hj with hj1 | hj2
        · exact hlt j hj1
        · rw [List.mem_singleton.mp hj2]
          exact horiglt

/-- Invariant of the whole cluster-selection fold. -/
theorem selectFold_invariant (images : List ℕ) (ts : List ℚ)
    (emb : List (List ℚ)) (clusterLabels : List ℕ)
    (centers : List (List ℚ)) :
    ∀ (is : List ℕ) (acc : List (ℕ × ℚ) × List ℕ),
    acc.1 = acc.2.map (fun j => (images.getD j 0, ts.getD j 0)) →
    acc.2.Nodup → (∀ j ∈ acc.2, j < clusterLabels.length) →
    ((is.foldl (selectStep images ts emb clusterLabels centers) acc).1 =
        ((is.foldl (selectStep images ts emb clusterLabels centers) acc).2).map
          (fun j => (images.getD j 0, ts.getD j 0)) ∧
      ((is.foldl (selectStep images ts emb clusterLabels centers) acc).2).Nodup ∧
      (∀ j ∈ (is.foldl (selectStep images ts emb clusterLabels centers) acc).2,
        j < clusterLabels.length) ∧
      ((is.foldl (selectStep images ts emb clusterLabels centers) acc).2).length ≤
        acc.2.length + is.length)
  | [], acc, hmap, hnd, hlt => ⟨hmap, hnd, hlt, by simp⟩
  | i :: rest, acc, hmap, hnd, hlt => by
    rw [List.foldl_cons]
    obtain ⟨hm, hn, hl, hlen⟩ := selectStep_invariant images ts emb
      clusterLabels centers acc i hmap hnd hlt
    obtain ⟨a, b, c, d⟩ := selectFold_invariant images ts emb clusterLabels
      centers rest (selectStep images ts emb clusterLabels centers acc i)
      hm hn hl
    refine ⟨a, b, c, ?_⟩
    simp only [List.length_cons]
    omega

/-- `zip` as a map over indices (used for the `N ≤ K` branch, which
returns every candidate). -/
theorem zip_eq_map_range : ∀ (l₁ : List ℕ) (l₂ : List ℚ),
    l₁.length = l₂.length →
    l₁.zip l₂ = (List.range l₁.length).map
      (fun i => (l₁.getD i 0, l₂.getD i 0))
  | [], l₂, h => by simp
  | a :: l₁, [], h => by simp at h
  | a :: l₁, b :: l₂, h => by
    simp only [List.length_cons] at h
    have ih := zip_eq_map_range l₁ l₂ (by omega)
    rw [List.zip_cons_cons, ih]
    rw [show (a :: l₁).length = l₁.length + 1 from rfl,
      List.range_succ_eq_map, List.map_cons, List.map_map]
    congr 1

/-- C7 counterexample: three candidates with identical embeddings, target
`K = 2`.  If the K-means fit collapses (labels `[0,0,0]`, duplicated
centers — what sklearn returns on three identical points), cluster 1 is
empty and is skipped without backfilling, so only one keyframe is
returned: fewer than `min(N, K) = 2`. -/
theorem keyframe_selection_counterexample :
    extract_keyframes_by_clustering [10, 20, 30] [0, 1, 2] [[1], [1], [1]] 2
        [0, 0, 0] [[1], [1]] = [(10, 0)] ∧
      ¬(extract_keyframes_by_clustering [10, 20, 30] [0, 1, 2] [[1], [1], [1]]
          2 [0, 0, 0] [[1], [1]]).length = min 3 2 := by
  have heval : extract_keyframes_by_clustering [10, 20, 30] [0, 1, 2]
      [[1], [1], [1]] 2 [0, 0, 0] [[1], [1]] = [(10, 0)] := by
    norm_num [extract_keyframes_by_clustering, cluster_and_select_keyframes,
      selectStep, sortByTimestamp, sqDist, argminIdx, argminAux,
      List.range_succ, List.foldl]
  refine ⟨heval, ?_⟩
  rw [heval]
  decide

/-- C7 (amended): keyframe selection returns at most `min(N, K)` distinct
keyframes — exactly `N` when `N ≤ K` (all candidates), and one
representative per nonempty cluster (the member closest to its centroid)
otherwise, possibly fewer than `K` — sorted ascending by timestamp and
drawn from pairwise-distinct candidate indices. -/
theorem keyframe_selection_bounds (images : List ℕ) (ts : List ℚ)
    (emb : List (List ℚ)) (num_keyframes : ℕ) (clusterLabels : List ℕ)
    (centers : List (List ℚ))
    (hts : ts.length = images.length)
    (hlab : clusterLabels.length = images.length) :
    List.Sorted (fun (a b : ℕ × ℚ) => a.2 ≤ b.2)
        (extract_keyframes_by_clustering images ts emb num_keyframes
          clusterLabels centers) ∧
      (extract_keyframes_by_clustering images ts emb num_keyframes
          clusterLabels centers).length ≤ min images.length num_keyframes ∧
      (images.length ≤ num_keyframes →
        (extract_keyframes_by_clustering images ts emb num_keyframes
          clusterLabels centers).length = images.length) ∧
      ∃ sel : List ℕ, sel.Nodup ∧ (∀ i ∈ sel, i < images.length) ∧
        (extract_keyframes_by_clustering images ts emb num_keyframes
            clusterLabels centers).Perm
          (sel.map (fun i => (images.getD i 0, ts.getD i 0))) := by
  haveI hTot : IsTotal (ℕ × ℚ) (fun a b => a.2 ≤ b.2) :=
    ⟨fun a b => le_total a.2 b.2⟩
  haveI hTrans : IsTrans (ℕ × ℚ) (fun a b => a.2 ≤ b.2) :=
    ⟨fun a b c hab hbc => le_trans hab hbc⟩
  unfold extract_keyframes_by_clustering
  by_cases hNK : images.length ≤ num_keyframes
  · rw [if_pos hNK]
    have hlen : (sortByTimestamp (images.zip ts)).length = images.length := by
      rw [sortByTimestamp, List.length_insertionSort, List.length_zip, hts,
        Nat.min_self]
    refine ⟨List.sorted_insertionSort _ _, ?_, fun _ => hlen, ?_⟩
    · rw [hlen, Nat.min_eq_left hNK]
    · refine ⟨List.range images.length, List.nodup_range _, ?_, ?_⟩
      · intro i hi
        exact List.mem_range.mp hi
      · have hperm := List.perm_insertionSort
          (fun (a b : ℕ × ℚ) => a.2 ≤ b.2) (images.zip ts)
        rw [sortByTimestamp]
        refine hperm.trans ?_
        rw [zip_eq_map_range images ts hts.symm]
  · rw [if_neg hNK]
    unfold cluster_and_select_keyframes
    by_cases hemb : emb.length = 0
    · rw [if_pos hemb]
      exact ⟨List.sorted_nil, by simp, fun h => absurd h hNK,
        ⟨[], List.nodup_nil, by simp, by simp⟩⟩
    · rw [if_neg hemb]
      by_cases hmm : images.length ≠ emb.length
      · rw [if_pos hmm]
        exact ⟨List.sorted_nil, by simp, fun h => absurd h hNK,
          ⟨[], List.nodup_nil, by simp, by simp⟩⟩
      · rw [if_neg hmm]
        have hembN : emb.length = images.length := by omega
        by_cases hact : min num_keyframes emb.length = 0
        · rw [if_pos hact]
          exact ⟨List.sorted_nil, by simp, fun h => absurd h hNK,
            ⟨[], List.nodup_nil, by simp, by simp⟩⟩
        · rw [if_neg hact]
          obtain ⟨hm, hn, hl, hlen⟩ := selectFold_invariant images ts emb
            clusterLabels centers (List.range (min num_keyframes emb.length))
            ([], []) rfl List.nodup_nil (by simp)
          refine ⟨List.sorted_insertionSort _ _, ?_, fun h => absurd h hNK, ?_⟩
          · rw [sortByTimestamp, List.length_insertionSort, hm,
              List.length_map]
            have hlen2 : ((List.range (min num_keyframes emb.length)).foldl
                (selectStep images ts emb clusterLabels centers)
                ([], [])).2.length ≤ min num_keyframes emb.length := by
              simpa using hlen
            omega
          · refine ⟨_, hn, ?_, ?_⟩
            · intro i hi
              have := hl i hi
              omega
            · have hperm := List.perm_insertionSort
                (fun (a b : ℕ × ℚ) => a.2 ≤ b.2)
                (((List.range (min num_keyframes emb.length)).foldl
                  (selectStep images ts emb clusterLabels centers) ([], [])).1)
              rw [sortByTimestamp]
              refine hperm.trans ?_
              rw [hm]

/-- Witness for C7 (amended) at a concrete `N ≤ K` instance. -/
theorem keyframe_selection_bounds_witness :
    List.Sorted (fun (a b : ℕ × ℚ) => a.2 ≤ b.2)
        (extract_keyframes_by_clustering [7, 8] [3, 1] [[1], [0]] 5 [0, 0]
          [[1]]) ∧
      (extract_keyframes_by_clustering [7, 8] [3, 1] [[1], [0]] 5 [0, 0]
          [[1]]).length ≤ min 2 5 ∧
      ((2 : ℕ) ≤ 5 →
        (extract_keyframes_by_clustering [7, 8] [3, 1] [[1], [0]] 5 [0, 0]
          [[1]]).length = 2) ∧
      ∃ sel : List ℕ, sel.Nodup ∧ (∀ i ∈ sel, i < 2) ∧
        (extract_keyframes_by_clustering [7, 8] [3, 1] [[1], [0]] 5 [0, 0]
            [[1]]).Perm
          (sel.map (fun i => (([7, 8] : List ℕ).getD i 0,
            (([3, 1] : List ℚ).getD i 0))) ) :=
  keyframe_selection_bounds [7, 8] [3, 1] [[1], [0]] 5 [0, 0] [[1]]
    rfl rfl

/-! ## Hybrid keyframe retrieval (`search_keyframes_hybrid`)

The two vector-database nearest-neighbour calls are external; their
result lists (id, cosine score) are passed as arguments `visual` and
`textual`.  Python's insertion-ordered `dict` becomes an association
list built in insertion order; `list.sort(key=..., reverse=True)` is a
stable descending sort; payloads/versions do not influence ranking and
are assumed present (the `payload is None` skip branch is not modelled).
The hybrid branch of `retrieve_relevant_keyframes` (the caller in
`core/vector_store/utils.py`) invokes this method with the keyword
argument `query_description_embedding`, but the method has no parameter
of that name (it is `query_sentence_embedding`), so the call raises
`TypeError` before the search body runs; the branch's enclosing
`try`/`except Exception` catches it and returns `None`, and in
particular the caller's later `score_threshold` filter is never reached
for hybrid results. -/

/-- Lookup of an id's score in one modality's result list, with default
(the merge treats a missing modality's score as `0.0`). -/
def scoreLookupD (l : List (String × ℚ)) (x : String) (d : ℚ) : ℚ :=
  match l.find? (fun p => p.1 == x) with
  | some p => p.2
  | none => d

/-- Lookup with the merge's `0.0` default. -/
def scoreLookup (l : List (String × ℚ)) (x : String) : ℚ :=
  scoreLookupD l x 0

/-- First merge loop of `search_keyframes_hybrid` (visual results):
insert the id with zeroed scores if absent, then set its
`clip_search_score`. -/
def addVisualScore (acc : List (String × ℚ × ℚ)) (pt : String × ℚ) :
    List (String × ℚ × ℚ) :=
  if acc.any (fun e => e.1 == pt.1) then
    acc.map (fun e => if e.1 == pt.1 then (e.1, pt.2, e.2.2) else e)
  else acc ++ [(pt.1, pt.2, 0)]

/-- Second merge loop (textual results): insert the id with zeroed
scores if absent, then set its `description_search_score`. -/
def addTextualScore (acc : List (String × ℚ × ℚ)) (pt : String × ℚ) :
    List (String × ℚ × ℚ) :=
  if acc.any (fun e => e.1 == pt.1) then
    acc.map (fun e => if e.1 == pt.1 then (e.1, e.2.1, pt.2) else e)
  else acc ++ [(pt.1, 0, pt.2)]

/-- The `combined_scores` dictionary after both merge loops, in
insertion order: (id, clip score, description score). -/
def combinedScores (visual textual : List (String × ℚ)) :
    List (String × ℚ × ℚ) :=
  textual.foldl addTextualScore (visual.foldl addVisualScore [])

/-- `search_keyframes_hybrid`: weighted re-ranking
`final_score = clip_score * clip_weight + description_score *
description_weight`, stable descending sort by final score, truncation
to `limit`. -/
def search_keyframes_hybrid (visual textual : List (String × ℚ))
    (limit : ℕ) (clip_weight description_weight : ℚ) : List (String × ℚ) :=
  let scored := (combinedScores visual textual).map
    (fun e => (e.1, e.2.1 * clip_weight + e.2.2 * description_weight))
  (List.insertionSort (fun a b => b.2 ≤ a.2) scored).take limit

/-- The hybrid branch of `retrieve_relevant_keyframes`
(`core/vector_store/utils.py`): the source calls
`retriever.search_keyframes_hybrid(...)` with the keyword argument
`query_description_embedding`, but the method's parameter is named
`query_sentence_embedding` and no parameter of the written name exists,
so every such call raises `TypeError` before the search body runs; the
enclosing `try`/`except Exception` catches it and the branch returns
`None` regardless of the inputs.  The branch's subsequent
`score_threshold` filter is therefore dead code for hybrid retrieval,
which is why no filtering appears here. -/
def retrieve_relevant_keyframes_hybrid (visual textual : List (String × ℚ))
    (limit : ℕ) (clip_weight description_weight : ℚ)
    (score_threshold : Option ℚ) : Option (List (String × ℚ)) :=
  none

/-- The visual merge loop over pairwise-new ids appends entries in
order. -/
theorem foldl_addVisual : ∀ (v : List (String × ℚ))
    (acc : List (String × ℚ × ℚ)),
    (∀ p ∈ v, ∀ e ∈ acc, ¬(e.1 = p.1)) → (v.map Prod.fst).Nodup →
    v.foldl addVisualScore acc = acc ++ v.map (fun p => (p.1, p.2, 0))
  | [], acc, hdisj, hnd => by simp
  | p :: v, acc, hdisj, hnd => by
    rw [List.foldl_cons]
    have hany : acc.any (fun e => e.1 == p.1) = false := by
      rw [List.any_eq_false]
      intro e he
      simpa using hdisj p (by simp) e he
    have hstep : addVisualScore acc p = acc ++ [(p.1, p.2, 0)] := by
      unfold addVisualScore
      rw [hany]
      simp
    rw [hstep]
    simp only [List.map_cons, List.nodup_cons] at hnd
    have hdisj2 : ∀ q ∈ v, ∀ e ∈ acc ++ [(p.1, p.2, 0)], ¬(e.1 = q.1) := by
      intro q hq e he
      rcases List.mem_append.mp he with he1 | he2
      · exact hdisj q (by simp [hq]) e he1
      · rw [List.mem_singleton.mp he2]
        intro hc
        exact hnd.1 (hc ▸ List.mem_map_of_mem Prod.fst hq)
    rw [foldl_addVisual v (acc ++ [(p.1, p.2, 0)]) hdisj2 hnd.2]
    simp

/-- Lookup at a matching head. -/
theorem scoreLookupD_cons_eq (q : String × ℚ) (l : List (String × ℚ))
    (x : String) (d : ℚ) (h : q.1 = x) : scoreLookupD (q :: l) x d = q.2 := by
  unfold scoreLookupD
  rw [List.find?_cons_of_pos _ (by simpa using h)]

/-- Lookup skips a non-matching head. -/
theorem scoreLookupD_cons_ne (q : String × ℚ) (l : List (String × ℚ))
    (x : String) (d : ℚ) (h : ¬(q.1 = x)) :
    scoreLookupD (q :: l) x d = scoreLookupD l x d := by
  unfold scoreLookupD
  rw [List.find?_cons_of_neg _ (by simpa using h)]

/-- Lookup of an absent id returns the default. -/
theorem scoreLookupD_not_mem (l : List (String × ℚ)) (x : String) (d : ℚ)
    (h : x ∉ l.map Prod.fst) : scoreLookupD l x d = d := by
  unfold scoreLookupD
  rw [List.find?_eq_none.mpr]
  intro q hq
  simp only [beq_iff_eq]
  intro hc
  exact h (hc ▸ List.mem_map_of_mem Prod.fst hq)

/-- The textual merge loop characterized: entries already present keep
their clip score and receive their textual score (or keep the old value
when textual does not mention them); unseen textual ids are appended in
order with clip score `0`. -/
theorem foldl_addTextual : ∀ (t : List (String × ℚ))
    (acc : List (String × ℚ × ℚ)), (t.map Prod.fst).Nodup →
    t.foldl addTextualScore acc =
      acc.map (fun e => (e.1, e.2.1, scoreLookupD t e.1 e.2.2)) ++
      (t.filter (fun q => !acc.any (fun e => e.1 == q.1))).map
        (fun q => (q.1, 0, q.2))
  | [], acc, hnd => by
    simp only [List.foldl_nil, List.filter_nil, List.map_nil,
      List.append_nil]
    rw [show (fun (e : String × ℚ × ℚ) =>
        (e.1, e.2.1, scoreLookupD [] e.1 e.2.2)) = id from funext fun e => rfl,
      List.map_id]
  | p :: t, acc, hnd => by
    rw [List.foldl_cons]
    simp only [List.map_cons, List.nodup_cons] at hnd
    obtain ⟨hp, hndt⟩ := hnd
    by_cases hmem : acc.any (fun e => e.1 == p.1)
    · have hstep : addTextualScore acc p =
          acc.map (fun e => if e.1 == p.1 then (e.1, e.2.1, p.2) else e) := by
        unfold addTextualScore
        rw [if_pos hmem]
      rw [hstep, foldl_addTextual t _ hndt]
      have hcond : ∀ q : String × ℚ,
          ((acc.map (fun e => if e.1 == p.1 then (e.1, e.2.1, p.2) else e)).any
            (fun e => e.1 == q.1)) = acc.any (fun e => e.1 == q.1) := by
        intro q
        rw [List.any_map]
        congr 1
        funext e
        by_cases hep : (e.1 == p.1) = true
        · rw [Function.comp_apply, if_pos hep]
        · rw [Function.comp_apply, if_neg hep]
      congr 1
      · rw [List.map_map]
        apply List.map_congr_left
        intro e he
        by_cases hep : e.1 = p.1
        · have hbeq : (e.1 == p.1) = true := by simpa using hep
          simp only [Function.comp_apply, if_pos hbeq]
          rw [scoreLookupD_not_mem t e.1 p.2 (hep ▸ hp),
            scoreLookupD_cons_eq p t e.1 e.2.2 hep.symm]
        · have hbeq : ¬((e.1 == p.1) = true) := by simpa using hep
          simp only [Function.comp_apply, if_neg hbeq]
          rw [scoreLookupD_cons_ne p t e.1 e.2.2 (fun hc => hep hc.symm)]
      · have hpfalse : ¬((!acc.any (fun e => e.1 == p.1)) = true) := by
          rw [hmem]
          decide
        rw [List.filter_cons, if_neg hpfalse]
        congr 1
        apply List.filter_congr
        intro q hq
        rw [hcond q]
    · have hstep : addTextualScore acc p = acc ++ [(p.1, 0, p.2)] := by
        unfold addTextualScore
        rw [if_neg hmem]
      rw [hstep, foldl_addTextual t _ hndt]
      have haccne : ∀ e ∈ acc, ¬(e.1 = p.1) := by
        intro e he
        have := List.any_eq_false.mp (Bool.eq_false_iff.mpr hmem) e he
        simpa using this
      have hptrue : (!acc.any (fun e => e.1 == p.1)) = true := by
        rw [Bool.eq_false_iff.mpr hmem]
        rfl
      rw [List.filter_cons, if_pos hptrue]
      rw [List.map_append, List.map_cons]
      have hfiltereq : t.filter
            (fun q => !(acc ++ [(p.1, 0, p.2)]).any (fun e => e.1 == q.1)) =
          t.filter (fun q => !acc.any (fun e => e.1 == q.1)) := by
        apply List.filter_congr
        intro q hq
        have hqp : ¬(p.1 = q.1) := by
          intro hc
          exact hp (hc ▸ List.mem_map_of_mem Prod.fst hq)
        rw [List.any_append]
        simp [List.any_cons, List.any_nil, hqp]
      have hmapacc : acc.map (fun e =>
            (e.1, e.2.1, scoreLookupD t e.1 e.2.2)) =
          acc.map (fun e =>
            (e.1, e.2.1, scoreLookupD (p :: t) e.1 e.2.2)) := by
        apply List.map_congr_left
        intro e he
        rw [scoreLookupD_cons_ne p t e.1 e.2.2
          (fun hc => haccne e he hc.symm)]
      rw [hfiltereq, hmapacc]
      simp [scoreLookupD_not_mem t p.1 p.2 hp]

/-- `List.any` through a (type-changing) map. -/
theorem any_map_comp {α β : Type} (f : α → β) (p : β → Bool) :
    ∀ l : List α, (l.map f).any p = l.any (fun a => p (f a))
  | [] => rfl
  | a :: l => by
    simp only [List.map_cons, List.any_cons, any_map_comp f p l]

/-- With duplicate-free per-modality ids, the combined map is: the
visual hits in order (each with its textual score or `0`), then the
textual-only hits in order (with clip score `0`). -/
theorem combinedScores_eq (visual textual : List (String × ℚ))
    (hv : (visual.map Prod.fst).Nodup) (ht : (textual.map Prod.fst).Nodup) :
    combinedScores visual textual =
      visual.map (fun p => (p.1, p.2, scoreLookup textual p.1)) ++
      (textual.filter (fun q => !visual.any (fun p => p.1 == q.1))).map
        (fun q => (q.1, 0, q.2)) := by
  unfold combinedScores
  rw [foldl_addVisual visual [] (by simp) hv, List.nil_append,
    foldl_addTextual textual _ ht]
  congr 1
  · rw [List.map_map]
    apply List.map_congr_left
    intro p hp
    rfl
  · congr 1
    apply List.filter_congr
    intro q hq
    rw [any_map_comp]

/-- With duplicate-free ids, a modality's own hit looks up to its own
score. -/
theorem scoreLookup_of_mem : ∀ (l : List (String × ℚ)),
    (l.map Prod.fst).Nodup → ∀ p ∈ l, scoreLookup l p.1 = p.2
  | [], _, p, hp => absurd hp (List.not_mem_nil p)
  | q :: l, hnd, p, hp => by
    simp only [List.map_cons, List.nodup_cons] at hnd
    rcases List.mem_cons.mp hp with hpq | hpl
    · subst hpq
      exact scoreLookupD_cons_eq p l p.1 0 rfl
    · have hq : ¬(q.1 = p.1) := by
        intro hc
        exact hnd.1 (hc ▸ List.mem_map_of_mem Prod.fst hpl)
      show scoreLookupD (q :: l) p.1 0 = p.2
      rw [scoreLookupD_cons_ne q l p.1 0 hq]
      exact scoreLookup_of_mem l hnd.2 p hpl

/-- C2 counterexample: visual hit `b` (clip score 1) and textual hit `a`
(description score 3/2) tie at final score 3/5 under weights 0.6/0.4.
The code returns `[b, a]` — the map insertion order under the stable
sort — not the id-ascending order `[a, b]` the claim requires, so the
returned list is not sorted by (score descending, id ascending). -/
theorem hybrid_tie_counterexample :
    search_keyframes_hybrid [("b", 1)] [("a", 3 / 2)] 10 (6 / 10) (4 / 10) =
        [("b", 3 / 5), ("a", 3 / 5)] ∧
      ¬ List.Pairwise (fun (x y : String × ℚ) =>
          y.2 < x.2 ∨ (y.2 = x.2 ∧ x.1 ≤ y.1))
        (search_keyframes_hybrid [("b", 1)] [("a", 3 / 2)] 10 (6 / 10)
          (4 / 10)) := by
  have heval : search_keyframes_hybrid [("b", 1)] [("a", 3 / 2)] 10 (6 / 10)
      (4 / 10) = [("b", 3 / 5), ("a", 3 / 5)] := by
    norm_num [search_keyframes_hybrid, combinedScores, addVisualScore,
      addTextualScore, List.foldl, List.insertionSort, List.orderedInsert,
      show (("b" == "a") : Bool) = false from by decide]
  refine ⟨heval, ?_⟩
  rw [heval]
  intro hpair
  have h1 : ((3 : ℚ) / 5 < 3 / 5 ∨ ((3 : ℚ) / 5 = 3 / 5 ∧ "b" ≤ "a")) :=
    List.rel_of_pairwise_cons hpair
      (show ("a", (3 : ℚ) / 5) ∈ [("a", (3 : ℚ) / 5)] from by simp)
  rcases h1 with h | ⟨heq2, hle⟩
  · exact absurd h (lt_irrefl _)
  · have hab : "a" < "b" := by
      rw [String.lt_iff_toList_lt]
      decide
    exact absurd hle (not_le.mpr hab)

/-- C2 (amended): every hit `search_keyframes_hybrid` returns has an id
from one of the two modality result sets and final score
`clip_score * clip_weight + description_score * description_weight`
with a missing modality's score treated as `0.0`; the returned list is
sorted descending by final score — ties in the merge map's insertion
order (visual hits first, then textual-only hits), not by id — has
duplicate-free ids and is truncated to at most `limit` entries.  No
`score_threshold` is ever applied to hybrid results:
`search_keyframes_hybrid` takes none, and the one caller that would
apply one (`retrieve_relevant_keyframes`) invokes the method with the
nonexistent keyword `query_description_embedding`, raises `TypeError`,
and returns `None` from its `except` handler. -/
theorem hybrid_retrieval_properties (visual textual : List (String × ℚ))
    (limit : ℕ) (clip_weight description_weight : ℚ)
    (score_threshold : Option ℚ)
    (hv : (visual.map Prod.fst).Nodup) (ht : (textual.map Prod.fst).Nodup) :
    (∀ e ∈ search_keyframes_hybrid visual textual limit
        clip_weight description_weight,
      (e.1 ∈ visual.map Prod.fst ∨ e.1 ∈ textual.map Prod.fst) ∧
      e.2 = scoreLookup visual e.1 * clip_weight +
        scoreLookup textual e.1 * description_weight) ∧
    List.Sorted (fun (a b : String × ℚ) => b.2 ≤ a.2)
      (search_keyframes_hybrid visual textual limit clip_weight
        description_weight) ∧
    (search_keyframes_hybrid visual textual limit clip_weight
      description_weight).length ≤ limit ∧
    ((search_keyframes_hybrid visual textual limit clip_weight
      description_weight).map Prod.fst).Nodup ∧
    retrieve_relevant_keyframes_hybrid visual textual limit clip_weight
      description_weight score_threshold = none := by
  haveI hTot : IsTotal (String × ℚ) (fun a b => b.2 ≤ a.2) :=
    ⟨fun a b => le_total b.2 a.2⟩
  haveI hTrans : IsTrans (String × ℚ) (fun a b => b.2 ≤ a.2) :=
    ⟨fun a b c hab hbc => le_trans hbc hab⟩
  have hC := combinedScores_eq visual textual hv ht
  have hK1 : ∀ c ∈ combinedScores visual textual,
      (c.1 ∈ visual.map Prod.fst ∨ c.1 ∈ textual.map Prod.fst) ∧
      c.2.1 = scoreLookup visual c.1 ∧ c.2.2 = scoreLookup textual c.1 := by
    intro c hc
    rw [hC] at hc
    rcases List.mem_append.mp hc with hc1 | hc2
    · obtain ⟨p, hpmem, hpc⟩ := List.mem_map.mp hc1
      subst hpc
      exact ⟨Or.inl (List.mem_map_of_mem Prod.fst hpmem),
        (scoreLookup_of_mem visual hv p hpmem).symm, rfl⟩
    · obtain ⟨q, hqmem, hqc⟩ := List.mem_map.mp hc2
      subst hqc
      have hqt : q ∈ textual := List.mem_of_mem_filter hqmem
      have hnone : ∀ (a : String) (b : ℚ), (a, b) ∈ visual → ¬(a = q.1) := by
        simpa using List.of_mem_filter hqmem
      have hqnotv : q.1 ∉ visual.map Prod.fst := by
        intro hcon
        obtain ⟨p, hpmem, hpq⟩ := List.mem_map.mp hcon
        exact hnone p.1 p.2 hpmem hpq
      refine ⟨Or.inr (List.mem_map_of_mem Prod.fst hqt), ?_, ?_⟩
      · rw [show scoreLookup visual q.1 = 0 from
          scoreLookupD_not_mem visual q.1 0 hqnotv]
      · exact (scoreLookup_of_mem textual ht q hqt).symm
  have hK2 : ((combinedScores visual textual).map Prod.fst).Nodup := by
    rw [hC, List.map_append, List.map_map, List.map_map]
    rw [List.nodup_append]
    refine ⟨by simpa using hv, ?_, ?_⟩
    · have hsub : ((textual.filter
            (fun q => !visual.any (fun p => p.1 == q.1))).map
          (Prod.fst ∘ fun q => (q.1, 0, q.2))).Sublist (textual.map Prod.fst) := by
        have h1 := List.filter_sublist
          (p := fun q => !visual.any (fun p => p.1 == q.1)) textual
        simpa using h1.map Prod.fst
      exact ht.sublist hsub
    · intro x hx1 hx2
      obtain ⟨p, hpmem, hpx⟩ := List.mem_map.mp hx1
      obtain ⟨q, hqmem, hqx⟩ := List.mem_map.mp hx2
      have hnone : ∀ (a : String) (b : ℚ), (a, b) ∈ visual → ¬(a = q.1) := by
        simpa using List.of_mem_filter hqmem
      simp only [Function.comp_apply] at hpx hqx
      exact hnone p.1 p.2 hpmem (by rw [hpx, ← hqx])
  have hscored : ∀ s ∈ (combinedScores visual textual).map
      (fun e => (e.1, e.2.1 * clip_weight + e.2.2 * description_weight)),
      (s.1 ∈ visual.map Prod.fst ∨ s.1 ∈ textual.map Prod.fst) ∧
      s.2 = scoreLookup visual s.1 * clip_weight +
        scoreLookup textual s.1 * description_weight := by
    intro s hs
    obtain ⟨c, hcmem, hcs⟩ := List.mem_map.mp hs
    subst hcs
    obtain ⟨hmem, h1, h2⟩ := hK1 c hcmem
    exact ⟨hmem, by rw [h1, h2]⟩
  have hscoredids : (((combinedScores visual textual).map
      (fun e => (e.1, e.2.1 * clip_weight + e.2.2 * description_weight))).map
        Prod.fst).Nodup := by
    rw [List.map_map]
    simpa using hK2
  have hperm := List.perm_insertionSort
    (fun (a b : String × ℚ) => b.2 ≤ a.2)
    ((combinedScores visual textual).map
      (fun e => (e.1, e.2.1 * clip_weight + e.2.2 * description_weight)))
  have hsorted := List.sorted_insertionSort
    (fun (a b : String × ℚ) => b.2 ≤ a.2)
    ((combinedScores visual textual).map
      (fun e => (e.1, e.2.1 * clip_weight + e.2.2 * description_weight)))
  have hmemsearch : ∀ e ∈ search_keyframes_hybrid visual textual limit
      clip_weight description_weight,
      (e.1 ∈ visual.map Prod.fst ∨ e.1 ∈ textual.map Prod.fst) ∧
      e.2 = scoreLookup visual e.1 * clip_weight +
        scoreLookup textual e.1 * description_weight := by
    intro e he
    have he2 := (List.take_sublist _ _).mem he
    exact hscored e (hperm.mem_iff.mp he2)
  have hsortsearch : List.Sorted (fun (a b : String × ℚ) => b.2 ≤ a.2)
      (search_keyframes_hybrid visual textual limit clip_weight
        description_weight) :=
    hsorted.sublist (List.take_sublist _ _)
  have hlensearch : (search_keyframes_hybrid visual textual limit clip_weight
      description_weight).length ≤ limit := by
    unfold search_keyframes_hybrid
    exact List.length_take_le _ _
  have hidsearch : ((search_keyframes_hybrid visual textual limit clip_weight
      description_weight).map Prod.fst).Nodup := by
    have hnd2 : ((List.insertionSort (fun (a b : String × ℚ) => b.2 ≤ a.2)
        ((combinedScores visual textual).map
          (fun e => (e.1, e.2.1 * clip_weight +
            e.2.2 * description_weight)))).map Prod.fst).Nodup :=
      ((hperm.map Prod.fst).nodup_iff).mpr hscoredids
    exact hnd2.sublist ((List.take_sublist _ _).map Prod.fst)
  exact ⟨hmemsearch, hsortsearch, hlensearch, hidsearch, rfl⟩

/-- Witness for C2 (amended) with concrete result sets and threshold. -/
theorem hybrid_retrieval_properties_witness :
    (∀ e ∈ search_keyframes_hybrid [("b", 1)] [("a", 3 / 2)] 10
        (6 / 10) (4 / 10),
      (e.1 ∈ ([("b", (1 : ℚ))].map Prod.fst) ∨
        e.1 ∈ ([("a", (3 / 2 : ℚ))].map Prod.fst)) ∧
      e.2 = scoreLookup [("b", 1)] e.1 * (6 / 10) +
        scoreLookup [("a", 3 / 2)] e.1 * (4 / 10)) ∧
    List.Sorted (fun (a b : String × ℚ) => b.2 ≤ a.2)
      (search_keyframes_hybrid [("b", 1)] [("a", 3 / 2)] 10
        (6 / 10) (4 / 10)) ∧
    (search_keyframes_hybrid [("b", 1)] [("a", 3 / 2)] 10 (6 / 10)
      (4 / 10)).length ≤ 10 ∧
    ((search_keyframes_hybrid [("b", 1)] [("a", 3 / 2)] 10 (6 / 10)
      (4 / 10)).map Prod.fst).Nodup ∧
    retrieve_relevant_keyframes_hybrid [("b", 1)] [("a", 3 / 2)] 10 (6 / 10)
      (4 / 10) (some (1 / 2)) = none :=
  hybrid_retrieval_properties [("b", 1)] [("a", 3 / 2)] 10 (6 / 10) (4 / 10)
    (some (1 / 2)) (by decide) (by decide)

/-! ## Transition matrix (`build_transition_matrix`)

The action-label-to-id map in the source is the canonical enumeration
produced by `get_action_label_mappings` (label ↦ its position in
`action_labels_list`), so rows and columns are indexed by `Fin K`
positions and the id of a label is its index.  `transitionEntry` gives
each cell's final value after the branch's assignments;
`build_transition_matrix` then normalizes each row by its sum (with the
source's `row_sums[row_sums < 1e-10] = 1.0` guard). -/

/-- `valid_successors`: declared successors filtered to the vocabulary. -/
def validSuccessors (labels : List String)
    (succMap : List (String × List String)) (a : String) : List String :=
  (lookupSuccessors succMap a).filter (fun s => decide (s ∈ labels))

/-- `non_self_valid_successors`. -/
def nonSelfSuccessors (labels : List String)
    (succMap : List (String × List String)) (a : String) : List String :=
  (validSuccessors labels succMap a).filter (fun s => decide (¬(s = a)))

/-- The forced self-loop value `1 - (K-1)*ε`, floored at `ε`
(cases A, B and E of the source). -/
def forcedSelf (K : ℕ) (ε : ℚ) : ℚ :=
  if 1 - ((K : ℚ) - 1) * ε < ε then ε else 1 - ((K : ℚ) - 1) * ε

/-- The source's per-cell floor: assign `v`, then overwrite with `ε`
when `v < ε`. -/
def clampFloor (v ε : ℚ) : ℚ := if v < ε then ε else v

/-- Final value of cell `T[i, j]` of `build_transition_matrix` before
row normalization, per the five branches of the source. -/
def transitionEntry (labels : List String)
    (succMap : List (String × List String)) (p_self epsilon_floor : ℚ)
    (i j : Fin labels.length) : ℚ :=
  if validSuccessors labels succMap (labels.get i) = [] then
    (if j = i then forcedSelf labels.length epsilon_floor else epsilon_floor)
  else if labels.get i ∈ validSuccessors labels succMap (labels.get i) ∧
      nonSelfSuccessors labels succMap (labels.get i) = [] then
    (if j = i then forcedSelf labels.length epsilon_floor else epsilon_floor)
  else if labels.get i ∈ validSuccessors labels succMap (labels.get i) then
    (if j = i then p_self
     else if labels.get j ∈ nonSelfSuccessors labels succMap (labels.get i) then
       clampFloor ((1 - p_self) /
         ((nonSelfSuccessors labels succMap (labels.get i)).length : ℚ))
         epsilon_floor
     else epsilon_floor)
  else if nonSelfSuccessors labels succMap (labels.get i) ≠ [] then
    (if j = i then epsilon_floor
     else if labels.get j ∈ nonSelfSuccessors labels succMap (labels.get i) then
       clampFloor ((1 - epsilon_floor) /
         ((nonSelfSuccessors labels succMap (labels.get i)).length : ℚ))
         epsilon_floor
     else epsilon_floor)
  else
    (if j = i then forcedSelf labels.length epsilon_floor else epsilon_floor)

/-- Sum of row `i` before normalization (`T.sum(axis=1)`). -/
def transitionRowSum (labels : List String)
    (succMap : List (String × List String)) (p_self epsilon_floor : ℚ)
    (i : Fin labels.length) : ℚ :=
  ∑ j : Fin labels.length, transitionEntry labels succMap p_self epsilon_floor i j

/-- `build_transition_matrix`: the row-normalized transition matrix,
with the zero-row guard `row_sums[row_sums < 1e-10] = 1.0`. -/
def build_transition_matrix (labels : List String)
    (succMap : List (String × List String)) (p_self epsilon_floor : ℚ)
    (i j : Fin labels.length) : ℚ :=
  transitionEntry labels succMap p_self epsilon_floor i j /
    (if transitionRowSum labels succMap p_self epsilon_floor i < 1 / 10 ^ 10
      then 1 else transitionRowSum labels succMap p_self epsilon_floor i)

/-- Every pre-normalization cell is strictly positive for
`0 < p_self < 1` and `ε > 0`. -/
theorem transitionEntry_pos (labels : List String)
    (succMap : List (String × List String)) (p_self epsilon_floor : ℚ)
    (hp0 : 0 < p_self) (hε : 0 < epsilon_floor) (i j : Fin labels.length) :
    0 < transitionEntry labels succMap p_self epsilon_floor i j := by
  unfold transitionEntry forcedSelf clampFloor
  split_ifs <;> linarith

/-- A sum over all positions of a list is the sum over the list. -/
theorem sum_fin_get (g : String → ℚ) : ∀ (L : List String),
    (∑ j : Fin L.length, g (L.get j)) = (L.map g).sum
  | [] => by simp
  | a :: L => by
    show (∑ j : Fin (L.length + 1), g ((a :: L).get j)) = ((a :: L).map g).sum
    rw [Fin.sum_univ_succ, List.map_cons, List.sum_cons]
    congr 1
    exact sum_fin_get g L

/-- Splitting off the unique position carrying label `a`. -/
theorem sum_map_label (L : List String) (hL : L.Nodup) (a : String)
    (ha : a ∈ L) (sv : ℚ) (ov : String → ℚ) :
    (L.map (fun b => if b = a then sv else ov b)).sum =
      sv + ((L.erase a).map ov).sum := by
  have hperm := (List.perm_cons_erase ha).map
    (fun b => if b = a then sv else ov b)
  rw [hperm.sum_eq, List.map_cons, List.sum_cons, if_pos rfl]
  congr 1
  exact congrArg List.sum (List.map_congr_left
    fun b hb => if_neg (hL.mem_erase_iff.mp hb).1)

/-- Sum of a two-valued membership function over a duplicate-free list:
`|S|` positions give `c`, the rest give `d`. -/
theorem sum_map_ite_mem : ∀ (L S : List String), L.Nodup → S.Nodup →
    (∀ x ∈ S, x ∈ L) → ∀ (c d : ℚ),
    (L.map (fun b => if b ∈ S then c else d)).sum =
      (S.length : ℚ) * (c - d) + (L.length : ℚ) * d
  | [], S, hL, hS, hsub, c, d => by
    have hSnil : S = [] := List.eq_nil_iff_forall_not_mem.mpr
      (fun x hx => absurd (hsub x hx) (List.not_mem_nil x))
    subst hSnil
    simp
  | x :: L, S, hL, hS, hsub, c, d => by
    rw [List.nodup_cons] at hL
    by_cases hx : x ∈ S
    · have hsub2 : ∀ y ∈ S.erase x, y ∈ L := by
        intro y hy
        have hyy := hS.mem_erase_iff.mp hy
        rcases List.mem_cons.mp (hsub y hyy.2) with h1 | h2
        · exact absurd h1 hyy.1
        · exact h2
      have hcong : ∀ b ∈ L,
          (if b ∈ S then c else d) = (if b ∈ S.erase x then c else d) := by
        intro b hb
        by_cases hbS : b ∈ S
        · rw [if_pos hbS,
            if_pos (hS.mem_erase_iff.mpr
              ⟨fun hc => hL.1 (by rw [← hc]; exact hb), hbS⟩)]
        · rw [if_neg hbS,
            if_neg (fun hc => hbS (List.mem_of_mem_erase hc))]
      rw [List.map_cons, List.sum_cons, if_pos hx,
        List.map_congr_left hcong,
        sum_map_ite_mem L (S.erase x) hL.2 (hS.erase x) hsub2 c d]
      have h1S : 1 ≤ S.length :=
        Nat.succ_le_of_lt (List.length_pos.mpr (List.ne_nil_of_mem hx))
      have hlen : ((S.erase x).length : ℚ) = (S.length : ℚ) - 1 := by
        rw [List.length_erase_of_mem hx, Nat.cast_sub h1S, Nat.cast_one]
      rw [hlen]
      simp only [List.length_cons]
      push_cast
      ring
    · have hsub2 : ∀ y ∈ S, y ∈ L := by
        intro y hy
        rcases List.mem_cons.mp (hsub y hy) with h1 | h2
        · exact absurd (h1 ▸ hy) hx
        · exact h2
      rw [List.map_cons, List.sum_cons, if_neg hx,
        sum_map_ite_mem L S hL.2 hS hsub2 c d]
      simp only [List.length_cons]
      push_cast
      ring

/-- A row sum whose diagonal cell holds `sv` and whose off-diagonal cell
at column `j` holds `ov (labels.get j)` equals `sv` plus the sum of `ov`
over the other labels. -/
theorem sum_self_off (labels : List String) (hnd : labels.Nodup)
    (i : Fin labels.length) (sv : ℚ) (ov : String → ℚ)
    (f : Fin labels.length → ℚ)
    (hf : ∀ j, f j = if j = i then sv else ov (labels.get j)) :
    (∑ j, f j) = sv + ((labels.erase (labels.get i)).map ov).sum := by
  have h1 : ∀ j, f j =
      (fun b => if b = labels.get i then sv else ov b) (labels.get j) := by
    intro j
    rw [hf j]
    by_cases hji : j = i
    · subst hji
      rw [if_pos rfl]
      show sv = if labels.get j = labels.get j then sv else ov (labels.get j)
      rw [if_pos rfl]
    · rw [if_neg hji]
      show ov (labels.get j) =
        if labels.get j = labels.get i then sv else ov (labels.get j)
      rw [if_neg (fun hc => hji ((List.Nodup.get_inj_iff hnd).mp hc))]
  calc (∑ j, f j)
      = ∑ j, (fun b => if b = labels.get i then sv else ov b)
          (labels.get j) := Finset.sum_congr rfl (fun j _ => h1 j)
    _ = (labels.map (fun b => if b = labels.get i then sv else ov b)).sum :=
        sum_fin_get (fun b => if b = labels.get i then sv else ov b) labels
    _ = sv + ((labels.erase (labels.get i)).map ov).sum :=
        sum_map_label labels hnd (labels.get i) (labels.get_mem i.1 i.2) sv ov

/-- The declared successor list of any label is duplicate-free when the
successor map's values are (SuccessorGraph values are sets). -/
theorem lookupSuccessors_nodup (succMap : List (String × List String))
    (hsucc : ∀ pr ∈ succMap, pr.2.Nodup) (a : String) :
    (lookupSuccessors succMap a).Nodup := by
  unfold lookupSuccessors
  cases hfind : succMap.find? (fun pr => pr.1 == a) with
  | none => exact List.nodup_nil
  | some pr => exact hsucc pr (List.mem_of_find?_eq_some hfind)

/-- Sum of a constant over a list of labels. -/
theorem sum_map_const (c : ℚ) : ∀ (L : List String),
    (L.map (fun _ => c)).sum = (L.length : ℚ) * c
  | [] => by simp
  | a :: L => by
    rw [List.map_cons, List.sum_cons, sum_map_const c L]
    simp only [List.length_cons]
    push_cast
    ring

/-- Every pre-normalization row of the transition matrix sums to at
least `1`, in all five branches. -/
theorem transitionRowSum_ge_one (labels : List String)
    (succMap : List (String × List String)) (p_self epsilon_floor : ℚ)
    (hnd : labels.Nodup) (hsucc : ∀ pr ∈ succMap, pr.2.Nodup)
    (hp1 : p_self < 1) (hε : 0 < epsilon_floor) (i : Fin labels.length) :
    1 ≤ transitionRowSum labels succMap p_self epsilon_floor i := by
  have hK1 : 1 ≤ labels.length := i.pos
  have hKq : (1 : ℚ) ≤ (labels.length : ℚ) := by exact_mod_cast hK1
  have hmem_a : labels.get i ∈ labels := labels.get_mem i.1 i.2
  have herase_nodup : (labels.erase (labels.get i)).Nodup := hnd.erase _
  have herase_len : ((labels.erase (labels.get i)).length : ℚ) =
      (labels.length : ℚ) - 1 := by
    rw [List.length_erase_of_mem hmem_a, Nat.cast_sub hK1, Nat.cast_one]
  have hconst_sum : ((labels.erase (labels.get i)).map
      (fun _ => epsilon_floor)).sum =
      ((labels.length : ℚ) - 1) * epsilon_floor := by
    rw [sum_map_const, herase_len]
  have hforced : 1 ≤ forcedSelf labels.length epsilon_floor +
      ((labels.length : ℚ) - 1) * epsilon_floor := by
    unfold forcedSelf
    split_ifs with hcl
    · linarith
    · linarith
  have hAtype : (∀ j, transitionEntry labels succMap p_self epsilon_floor i j =
      if j = i then forcedSelf labels.length epsilon_floor
      else epsilon_floor) →
      1 ≤ transitionRowSum labels succMap p_self epsilon_floor i := by
    intro hA
    unfold transitionRowSum
    rw [sum_self_off labels hnd i (forcedSelf labels.length epsilon_floor)
      (fun _ => epsilon_floor) _ hA, hconst_sum]
    exact hforced
  have hvalid_sub : ∀ x ∈ validSuccessors labels succMap (labels.get i),
      x ∈ labels := by
    intro x hx
    have hx2 : x ∈ (lookupSuccessors succMap (labels.get i)).filter
        (fun s => decide (s ∈ labels)) := hx
    exact of_decide_eq_true (List.mem_filter.mp hx2).2
  have hns_nodup : (nonSelfSuccessors labels succMap (labels.get i)).Nodup :=
    ((lookupSuccessors_nodup succMap hsucc _).filter _).filter _
  have hns_sub : ∀ x ∈ nonSelfSuccessors labels succMap (labels.get i),
      x ∈ labels.erase (labels.get i) := by
    intro x hx
    have hx3 : x ∈ (validSuccessors labels succMap (labels.get i)).filter
        (fun s => decide (¬(s = labels.get i))) := hx
    have hxv : x ∈ validSuccessors labels succMap (labels.get i) :=
      List.mem_of_mem_filter hx3
    have hxne : ¬(x = labels.get i) :=
      of_decide_eq_true (List.mem_filter.mp hx3).2
    exact hnd.mem_erase_iff.mpr ⟨hxne, hvalid_sub x hxv⟩
  have hns_len : ((nonSelfSuccessors labels succMap
      (labels.get i)).length : ℚ) ≤ (labels.length : ℚ) - 1 := by
    have hle := (List.subperm_of_subset hns_nodup hns_sub).length_le
    calc ((nonSelfSuccessors labels succMap (labels.get i)).length : ℚ)
        ≤ ((labels.erase (labels.get i)).length : ℚ) := by exact_mod_cast hle
      _ = (labels.length : ℚ) - 1 := herase_len
  by_cases hv : validSuccessors labels succMap (labels.get i) = []
  · apply hAtype
    intro j
    unfold transitionEntry
    rw [if_pos hv]
  · by_cases hself : labels.get i ∈ validSuccessors labels succMap (labels.get i)
    · by_cases hns : nonSelfSuccessors labels succMap (labels.get i) = []
      · apply hAtype
        intro j
        unfold transitionEntry
        rw [if_neg hv, if_pos ⟨hself, hns⟩]
      · have hn0 : (0 : ℚ) < ((nonSelfSuccessors labels succMap
            (labels.get i)).length : ℚ) := by
          exact_mod_cast List.length_pos.mpr hns
        have hcv_ge : (1 - p_self) / ((nonSelfSuccessors labels succMap
            (labels.get i)).length : ℚ) ≤
            clampFloor ((1 - p_self) / ((nonSelfSuccessors labels succMap
              (labels.get i)).length : ℚ)) epsilon_floor := by
          unfold clampFloor
          split_ifs with h
          · linarith
          · linarith
        have hdiv : ((nonSelfSuccessors labels succMap
            (labels.get i)).length : ℚ) * ((1 - p_self) /
            ((nonSelfSuccessors labels succMap (labels.get i)).length : ℚ)) =
            1 - p_self := by
          rw [mul_comm, div_mul_cancel₀ _ (ne_of_gt hn0)]
        have hncv : 1 - p_self ≤ ((nonSelfSuccessors labels succMap
            (labels.get i)).length : ℚ) *
            clampFloor ((1 - p_self) / ((nonSelfSuccessors labels succMap
              (labels.get i)).length : ℚ)) epsilon_floor := by
          calc 1 - p_self = _ := hdiv.symm
            _ ≤ _ := mul_le_mul_of_nonneg_left hcv_ge hn0.le
        have hC : ∀ j, transitionEntry labels succMap p_self epsilon_floor i j =
            if j = i then p_self
            else (fun b => if b ∈ nonSelfSuccessors labels succMap
              (labels.get i) then
                clampFloor ((1 - p_self) / ((nonSelfSuccessors labels succMap
                  (labels.get i)).length : ℚ)) epsilon_floor
              else epsilon_floor) (labels.get j) := by
          intro j
          unfold transitionEntry
          rw [if_neg hv, if_neg (fun hcon => hns hcon.2), if_pos hself]
        unfold transitionRowSum
        rw [sum_self_off labels hnd i p_self
            (fun b => if b ∈ nonSelfSuccessors labels succMap
              (labels.get i) then
                clampFloor ((1 - p_self) / ((nonSelfSuccessors labels succMap
                  (labels.get i)).length : ℚ)) epsilon_floor
              else epsilon_floor) _ hC,
          sum_map_ite_mem (labels.erase (labels.get i))
            (nonSelfSuccessors labels succMap (labels.get i))
            herase_nodup hns_nodup hns_sub _ epsilon_floor, herase_len]
        have hprod : 0 ≤ ((labels.length : ℚ) - 1 -
            ((nonSelfSuccessors labels succMap (labels.get i)).length : ℚ)) *
            epsilon_floor :=
          mul_nonneg (by linarith) hε.le
        nlinarith [hncv, hprod]
    · by_cases hns : nonSelfSuccessors labels succMap (labels.get i) = []
      · apply hAtype
        intro j
        unfold transitionEntry
        rw [if_neg hv, if_neg (fun hcon => hself hcon.1), if_neg hself,
          if_neg (not_not_intro hns)]
      · have hn0 : (0 : ℚ) < ((nonSelfSuccessors labels succMap
            (labels.get i)).length : ℚ) := by
          exact_mod_cast List.length_pos.mpr hns
        have hcv_ge : (1 - epsilon_floor) / ((nonSelfSuccessors labels succMap
            (labels.get i)).length : ℚ) ≤
            clampFloor ((1 - epsilon_floor) / ((nonSelfSuccessors labels
              succMap (labels.get i)).length : ℚ)) epsilon_floor := by
          unfold clampFloor
          split_ifs with h
          · linarith
          · linarith
        have hdiv : ((nonSelfSuccessors labels succMap
            (labels.get i)).length : ℚ) * ((1 - epsilon_floor) /
            ((nonSelfSuccessors labels succMap (labels.get i)).length : ℚ)) =
            1 - epsilon_floor := by
          rw [mul_comm, div_mul_cancel₀ _ (ne_of_gt hn0)]
        have hncv : 1 - epsilon_floor ≤ ((nonSelfSuccessors labels succMap
            (labels.get i)).length : ℚ) *
            clampFloor ((1 - epsilon_floor) / ((nonSelfSuccessors labels
              succMap (labels.get i)).length : ℚ)) epsilon_floor := by
          calc 1 - epsilon_floor = _ := hdiv.symm
            _ ≤ _ := mul_le_mul_of_nonneg_left hcv_ge hn0.le
        have hD : ∀ j, transitionEntry labels succMap p_self epsilon_floor i j =
            if j = i then epsilon_floor
            else (fun b => if b ∈ nonSelfSuccessors labels succMap
              (labels.get i) then
                clampFloor ((1 - epsilon_floor) / ((nonSelfSuccessors labels
                  succMap (labels.get i)).length : ℚ)) epsilon_floor
              else epsilon_floor) (labels.get j) := by
          intro j
          unfold transitionEntry
          rw [if_neg hv, if_neg (fun hcon => hself hcon.1), if_neg hself,
            if_pos hns]
        unfold transitionRowSum
        rw [sum_self_off labels hnd i epsilon_floor
            (fun b => if b ∈ nonSelfSuccessors labels succMap
              (labels.get i) then
                clampFloor ((1 - epsilon_floor) / ((nonSelfSuccessors labels
                  succMap (labels.get i)).length : ℚ)) epsilon_floor
              else epsilon_floor) _ hD,
          sum_map_ite_mem (labels.erase (labels.get i))
            (nonSelfSuccessors labels succMap (labels.get i))
            herase_nodup hns_nodup hns_sub _ epsilon_floor, herase_len]
        have hprod : 0 ≤ ((labels.length : ℚ) - 1 -
            ((nonSelfSuccessors labels succMap (labels.get i)).length : ℚ)) *
            epsilon_floor :=
          mul_nonneg (by linarith) hε.le
        nlinarith [hncv, hprod]

/-- C1: for every action-label list (distinct labels, ids the canonical
enumeration), every successor map with duplicate-free successor sets,
every `p_self ∈ (0,1)` and every `epsilon_floor > 0`, each row of
`build_transition_matrix` sums to `1.0` within `1e-9` (in exact
arithmetic, to exactly `1`) and every entry is strictly positive,
across all five successor-map branches. -/
theorem transition_matrix_rows_stochastic_positive (labels : List String)
    (succMap : List (String × List String)) (p_self epsilon_floor : ℚ)
    (hnd : labels.Nodup) (hsucc : ∀ pr ∈ succMap, pr.2.Nodup)
    (hp0 : 0 < p_self) (hp1 : p_self < 1) (hε : 0 < epsilon_floor)
    (i : Fin labels.length) :
    |(∑ j, build_transition_matrix labels succMap p_self epsilon_floor i j) -
        1| ≤ 1 / 10 ^ 9 ∧
      ∀ j, 0 < build_transition_matrix labels succMap p_self epsilon_floor i j := by
  have hge := transitionRowSum_ge_one labels succMap p_self epsilon_floor hnd
    hsucc hp1 hε i
  have hspos : 0 < transitionRowSum labels succMap p_self epsilon_floor i :=
    lt_of_lt_of_le one_pos hge
  have hnotlt : ¬(transitionRowSum labels succMap p_self epsilon_floor i <
      1 / 10 ^ 10) := by
    intro hlt
    have h0 : (1 : ℚ) / 10 ^ 10 ≤ 1 := by norm_num
    linarith
  have hTn : ∀ j, build_transition_matrix labels succMap p_self epsilon_floor
      i j = transitionEntry labels succMap p_self epsilon_floor i j /
        transitionRowSum labels succMap p_self epsilon_floor i := by
    intro j
    unfold build_transition_matrix
    rw [if_neg hnotlt]
  constructor
  · have hsum : (∑ j, build_transition_matrix labels succMap p_self
        epsilon_floor i j) = 1 := by
      rw [Finset.sum_congr rfl (fun j _ => hTn j), ← Finset.sum_div]
      exact div_self (ne_of_gt hspos)
    rw [hsum]
    norm_num
  · intro j
    rw [hTn j]
    exact div_pos (transitionEntry_pos labels succMap p_self epsilon_floor
      hp0 hε i j) hspos

/-- Witness for C1: vocabulary `[A, B]` with `A`'s successors `[B]`,
`p_self = 1/2`, `ε = 1/100`, row `A`. -/
theorem transition_matrix_rows_witness :
    |(∑ j, build_transition_matrix ["A", "B"] [("A", ["B"])] (1 / 2) (1 / 100)
        ⟨0, by decide⟩ j) - 1| ≤ 1 / 10 ^ 9 ∧
      ∀ j, 0 < build_transition_matrix ["A", "B"] [("A", ["B"])] (1 / 2)
        (1 / 100) ⟨0, by decide⟩ j :=
  transition_matrix_rows_stochastic_positive ["A", "B"] [("A", ["B"])]
    (1 / 2) (1 / 100) (by decide) (by decide) (by norm_num) (by norm_num)
    (by norm_num) ⟨0, by decide⟩

end Oski
